import Mathlib

/-
Shallow embedding of the go-compiler repository (Monkey bytecode compiler and
virtual machine) and verification of its specification claims.

Sources embedded:
  - src/monkey/code/code.go         (Opcode, Definition, definitions, Lookup, Make)
  - src/monkey/compiler/compiler.go (Compiler, Compile, emit, backpatching)
  - src/monkey/vm/vm.go             (VM, Run, push, pop, binary operations)

Parts of the repository referenced by those files but absent from the snapshot
(the ast and object packages, the opcode constants other than OpConstant, the
operand-width table entries other than OpConstant, and code.ReadUint16) are
modelled from the specification; each such definition carries a doc comment
starting with "Modelled from the spec:".

Go integers are embedded as Lean Int with explicit wrap-around at 64 bits
where overflow matters; byte strings are List Nat with values below 256; a Go
runtime panic is embedded as an explicit crash outcome, distinct from an
error return.
-/

namespace GoCompiler

namespace code

/-- Byte value of OpConstant, first opcode of the iota block in code.go. -/
def OpConstant : Nat := 0

/-- Modelled from the spec: the opcode catalogue of section 4.1. The source
snapshot's code.go declares only OpConstant, but compiler.go and vm.go
reference the opcodes below; their byte values follow the catalogue order.
OpAdd pops two operands and pushes their sum. -/
def OpAdd : Nat := 1

/-- Modelled from the spec: subtraction opcode of the section 4.1 catalogue. -/
def OpSub : Nat := 2

/-- Modelled from the spec: multiplication opcode of the section 4.1 catalogue. -/
def OpMul : Nat := 3

/-- Modelled from the spec: division opcode of the section 4.1 catalogue. -/
def OpDiv : Nat := 4

/-- Modelled from the spec: push-true opcode of the section 4.1 catalogue. -/
def OpTrue : Nat := 5

/-- Modelled from the spec: push-false opcode of the section 4.1 catalogue. -/
def OpFalse : Nat := 6

/-- Modelled from the spec: equality comparison opcode of the section 4.1 catalogue. -/
def OpEqual : Nat := 7

/-- Modelled from the spec: inequality comparison opcode of the section 4.1 catalogue. -/
def OpNotEqual : Nat := 8

/-- Modelled from the spec: greater-than comparison opcode of the section 4.1 catalogue. -/
def OpGreaterThan : Nat := 9

/-- Modelled from the spec: unary negation opcode of the section 4.1 catalogue. -/
def OpMinus : Nat := 10

/-- Modelled from the spec: boolean negation opcode of the section 4.1 catalogue. -/
def OpBang : Nat := 11

/-- Modelled from the spec: unconditional jump opcode with one 2-byte operand. -/
def OpJump : Nat := 12

/-- Modelled from the spec: conditional jump opcode with one 2-byte operand. -/
def OpJumpNotTruthy : Nat := 13

/-- Modelled from the spec: discard-top-of-stack opcode of the section 4.1 catalogue. -/
def OpPop : Nat := 14

/-- Definition provides a readable name for the Opcode and the number of bytes
each operand takes up (code.go). -/
structure Definition where
  Name : String
  OperandWidths : List Nat
deriving DecidableEq

/-- Modelled from the spec: the opcode definition table. The source snapshot
fixes the OpConstant entry (one 2-byte operand); the remaining entries follow
the spec's section 4.1 catalogue (2-byte operand for the two jump opcodes,
no operands for the rest), since compiler.go emits all of these opcodes. -/
def definitions (op : Nat) : Option Definition :=
  if op = OpConstant then some ⟨"OpConstant", [2]⟩
  else if op = OpAdd then some ⟨"OpAdd", []⟩
  else if op = OpSub then some ⟨"OpSub", []⟩
  else if op = OpMul then some ⟨"OpMul", []⟩
  else if op = OpDiv then some ⟨"OpDiv", []⟩
  else if op = OpTrue then some ⟨"OpTrue", []⟩
  else if op = OpFalse then some ⟨"OpFalse", []⟩
  else if op = OpEqual then some ⟨"OpEqual", []⟩
  else if op = OpNotEqual then some ⟨"OpNotEqual", []⟩
  else if op = OpGreaterThan then some ⟨"OpGreaterThan", []⟩
  else if op = OpMinus then some ⟨"OpMinus", []⟩
  else if op = OpBang then some ⟨"OpBang", []⟩
  else if op = OpJump then some ⟨"OpJump", [2]⟩
  else if op = OpJumpNotTruthy then some ⟨"OpJumpNotTruthy", [2]⟩
  else if op = OpPop then some ⟨"OpPop", []⟩
  else none

/-- Lookup returns the definition of an operation, or an error naming the
byte value if the opcode is undefined (code.go). -/
def Lookup (op : Nat) : Except String Definition :=
  match definitions op with
  | some def0 => .ok def0
  | none => .error ("opcode " ++ toString op ++ " undefined")

/-- Big-endian write of the low 16 bits of a value at a given offset,
embedding binary.BigEndian.PutUint16 with Go's uint16 conversion. -/
def putUint16 (bytes : List Nat) (offset : Nat) (v : Nat) : List Nat :=
  (bytes.set offset (v % 65536 / 256)).set (offset + 1) (v % 256)

/-- The operand-writing loop of Make: each operand is written at its running
offset in its declared width (only width 2 is written, as in code.go). -/
def writeOperands (widths operands : List Nat) (offset : Nat) (bytes : List Nat) : List Nat :=
  match widths, operands with
  | w :: ws, o :: os =>
    writeOperands ws os (offset + w) (if w = 2 then putUint16 bytes offset o else bytes)
  | _, _ => bytes

/-- Make returns the instruction bytes for an opcode and its operands: a zero
byte sequence for an unknown opcode, else the opcode byte followed by each
operand written big-endian in its declared width (code.go). -/
def Make (op : Nat) (operands : List Nat) : List Nat :=
  match definitions op with
  | none => []
  | some def0 => writeOperands def0.OperandWidths operands 1 (op :: List.replicate def0.OperandWidths.sum 0)

/-- Modelled from the spec: the big-endian 2-byte operand decoder
(ReadOperand / ReadUint16 of section 4.1), used by vm.go but absent from the
snapshot's code.go. Bounds are checked by the caller, as in Go. -/
def ReadUint16 (ins : List Nat) : Nat :=
  256 * ins.getD 0 0 + ins.getD 1 0

end code

namespace object

/-- Modelled from the spec: the tagged runtime value of section 3 (the object
package is absent from the snapshot). The snapshot's vm.go uses the Integer
variant and its Type tag; Boolean is the other kind named by the spec. -/
inductive Object where
  | Integer (value : Int)
  | Boolean (value : Bool)
deriving DecidableEq

/-- Modelled from the spec: the INTEGER type tag used by vm.go's type check. -/
def INTEGER_OBJ : String := "INTEGER"

/-- Modelled from the spec: the Type method of runtime values. -/
def Object.type : Object → String
  | .Integer _ => INTEGER_OBJ
  | .Boolean _ => "BOOLEAN"

end object

namespace ast

/-- Modelled from the spec: the AST node taxonomy of section 1 (program,
expression statement, prefix/infix expression, integer/boolean literal,
conditional expression, block statement, and identifier/let-binding nodes).
The ast package is absent from the snapshot; compiler.go switches on these
node kinds, with no case for identifiers or let bindings. -/
inductive Node where
  | Program (statements : List Node)
  | ExpressionStatement (expression : Node)
  | PrefixExpression (operator : String) (right : Node)
  | InfixExpression (left : Node) (operator : String) (right : Node)
  | IntegerLiteral (value : Int)
  | BooleanLiteral (value : Bool)
  | IfExpression (condition : Node) (consequence : Node) (alternative : Option Node)
  | BlockStatement (statements : List Node)
  | Identifier (name : String)
  | LetStatement (name : String) (value : Node)

end ast

namespace compiler

open code object ast

/-- EmittedInstruction records the opcode and position of an emitted
instruction (compiler.go). The zero value has opcode 0 and position 0. -/
structure EmittedInstruction where
  Opcode : Nat
  Position : Nat
deriving DecidableEq

/-- Compiler state: instruction buffer, constant pool, and the bookkeeping of
the last and second-to-last emitted instruction (compiler.go). -/
structure Compiler where
  instructions : List Nat
  constants : List Object
  lastInstruction : EmittedInstruction
  previousInstruction : EmittedInstruction
deriving DecidableEq

/-- Bytecode artifact produced by the compiler (compiler.go). -/
structure Bytecode where
  Instructions : List Nat
  Constants : List Object
deriving DecidableEq

/-- New creates a Compiler with empty instructions and constant pool
(compiler.go); the two bookkeeping fields start as Go zero values. -/
def New : Compiler :=
  { instructions := [], constants := [],
    lastInstruction := ⟨0, 0⟩, previousInstruction := ⟨0, 0⟩ }

/-- Bytecode snapshot of the compiler's buffers (compiler.go). -/
def Compiler.Bytecode (c : Compiler) : Bytecode :=
  { Instructions := c.instructions, Constants := c.constants }

/-- addConstant appends to the constant pool and returns the new constant's
index (compiler.go). -/
def addConstant (c : Compiler) (obj : Object) : Compiler × Nat :=
  ({ c with constants := c.constants ++ [obj] }, c.constants.length)

/-- setLastInstruction shifts the last instruction into previous and records
the new one (compiler.go). -/
def setLastInstruction (c : Compiler) (op : Nat) (pos : Nat) : Compiler :=
  { c with previousInstruction := c.lastInstruction,
           lastInstruction := ⟨op, pos⟩ }

/-- emit assembles an instruction with Make, appends it to the buffer,
updates the bookkeeping, and returns its position (compiler.go, combining
emit and addInstruction). -/
def emit (c : Compiler) (op : Nat) (operands : List Nat) : Compiler × Nat :=
  let pos := c.instructions.length
  (setLastInstruction { c with instructions := c.instructions ++ Make op operands } op pos, pos)

/-- lastInstructionIsPop checks if the last emitted instruction is OpPop
(compiler.go). -/
def lastInstructionIsPop (c : Compiler) : Bool :=
  c.lastInstruction.Opcode == OpPop

/-- removeLastPop cuts off the last instruction and restores the bookkeeping
(compiler.go). Go slices the buffer to the last instruction's position. -/
def removeLastPop (c : Compiler) : Compiler :=
  { c with instructions := c.instructions.take c.lastInstruction.Position,
           lastInstruction := c.previousInstruction }

/-- overwrite places the replacement bytes at consecutive positions, as the
replaceInstruction loop does with index assignments (compiler.go). -/
def overwrite (l : List Nat) (pos : Nat) : List Nat → List Nat
  | [] => l
  | b :: bs => overwrite (l.set pos b) (pos + 1) bs

/-- replaceInstruction overwrites the bytes at pos with newInstruction
(compiler.go). -/
def replaceInstruction (c : Compiler) (pos : Nat) (newInstruction : List Nat) : Compiler :=
  { c with instructions := overwrite c.instructions pos newInstruction }

/-- changeOperand re-assembles the instruction whose opcode byte sits at
opPos with the new operand and overwrites it in place (compiler.go). -/
def changeOperand (c : Compiler) (opPos : Nat) (operand : Nat) : Compiler :=
  replaceInstruction c opPos (Make (c.instructions.getD opPos 0) [operand])

mutual

/-- Fuel bound for Compile's recursion: one unit per visited node, so fuel
of at least nodeFuel node lets Compile run the Go recursion to completion,
and every caller in this development supplies such a bound. -/
def nodeFuel : Node → Nat
  | .Program statements => 1 + nodesFuel statements
  | .ExpressionStatement e => 1 + nodeFuel e
  | .PrefixExpression _ right => 1 + nodeFuel right
  | .InfixExpression left _ right => 1 + nodeFuel left + nodeFuel right
  | .IntegerLiteral _ => 1
  | .BooleanLiteral _ => 1
  | .IfExpression condition consequence alternative =>
    1 + nodeFuel condition + nodeFuel consequence +
      (match alternative with | none => 0 | some alt => nodeFuel alt)
  | .BlockStatement statements => 1 + nodesFuel statements
  | .Identifier _ => 1
  | .LetStatement _ _ => 1

/-- Fuel bound for the statement-list recursion of nodeFuel. -/
def nodesFuel : List Node → Nat
  | [] => 1
  | s :: rest => 1 + nodeFuel s + nodesFuel rest

end

mutual

/-- Compile generates instructions for an AST node (compiler.go). The Go
type switch has no default case: node kinds it does not mention (identifier
and let-binding nodes) fall through and return nil, leaving the compiler
unchanged.

The Go recursion is structural on the AST; to keep the Lean function
kernel-computable the recursion here is structural on a fuel counter
decremented once per visited node. Fuel never runs out when it is at least
nodeFuel node, and every caller in this development supplies such a
bound. -/
def Compile : Nat → Compiler → Node → Except String Compiler
  | 0, _, _ => .error "compiler fuel exhausted"
  | fuel + 1, c, node =>
  match node with
  | .Program statements => compileStatements fuel c statements
  | .ExpressionStatement expression =>
    match Compile fuel c expression with
    | .error msg => .error msg
    | .ok c1 => .ok (emit c1 OpPop []).1
  | .PrefixExpression operator right =>
    match Compile fuel c right with
    | .error msg => .error msg
    | .ok c1 =>
      if operator = "-" then .ok (emit c1 OpMinus []).1
      else if operator = "!" then .ok (emit c1 OpBang []).1
      else .error ("unkown operator: " ++ operator)
  | .InfixExpression left operator right =>
    if operator = "<" then
      match Compile fuel c right with
      | .error msg => .error msg
      | .ok c1 =>
        match Compile fuel c1 left with
        | .error msg => .error msg
        | .ok c2 => .ok (emit c2 OpGreaterThan []).1
    else
      match Compile fuel c left with
      | .error msg => .error msg
      | .ok c1 =>
        match Compile fuel c1 right with
        | .error msg => .error msg
        | .ok c2 =>
          if operator = "+" then .ok (emit c2 OpAdd []).1
          else if operator = "-" then .ok (emit c2 OpSub []).1
          else if operator = "*" then .ok (emit c2 OpMul []).1
          else if operator = "/" then .ok (emit c2 OpDiv []).1
          else if operator = ">" then .ok (emit c2 OpGreaterThan []).1
          else if operator = "==" then .ok (emit c2 OpEqual []).1
          else if operator = "!=" then .ok (emit c2 OpNotEqual []).1
          else .error ("unkown operator: " ++ operator)
  | .IntegerLiteral value =>
    match addConstant c (.Integer value) with
    | (c1, idx) => .ok (emit c1 OpConstant [idx]).1
  | .BooleanLiteral value =>
    if value then .ok (emit c OpTrue []).1 else .ok (emit c OpFalse []).1
  | .IfExpression condition consequence alternative =>
    match Compile fuel c condition with
    | .error msg => .error msg
    | .ok c1 =>
      match emit c1 OpJumpNotTruthy [9999] with
      | (c2, jumpNotTruthyPos) =>
        match Compile fuel c2 consequence with
        | .error msg => .error msg
        | .ok c3 =>
          let c4 := if lastInstructionIsPop c3 then removeLastPop c3 else c3
          match alternative with
          | none =>
            .ok (changeOperand c4 jumpNotTruthyPos c4.instructions.length)
          | some alt =>
            match emit c4 OpJump [9999] with
            | (c5, jumpPos) =>
              let c6 := changeOperand c5 jumpNotTruthyPos c5.instructions.length
              match Compile fuel c6 alt with
              | .error msg => .error msg
              | .ok c7 =>
                let c8 := if lastInstructionIsPop c7 then removeLastPop c7 else c7
                .ok (changeOperand c8 jumpPos c8.instructions.length)
  | .BlockStatement statements => compileStatements fuel c statements
  | .Identifier _ => .ok c
  | .LetStatement _ _ => .ok c

/-- The statement loop shared by program and block nodes (compiler.go):
compile each child in order, stopping at the first error. Fuel as in
Compile. -/
def compileStatements : Nat → Compiler → List Node → Except String Compiler
  | 0, _, _ => .error "compiler fuel exhausted"
  | fuel + 1, c, statements =>
  match statements with
  | [] => .ok c
  | s :: rest =>
    match Compile fuel c s with
    | .error msg => .error msg
    | .ok c1 => compileStatements fuel c1 rest

end

end compiler

namespace vm

open code object compiler

/-- Stack capacity of the VM (vm.go). -/
def StackSize : Nat := 2048

/-- The mutable part of the VM during Run: the operand stack and the stack
pointer. Go allocates the stack as a fixed array of nil interface values, so
a slot is an Option Object, none standing for Go's nil. -/
structure VMState where
  stack : List (Option Object)
  sp : Nat
deriving DecidableEq

/-- Outcome of executing instructions: ok carries the machine state (for a
step, the state to continue from; for Run, the final state), err is an error
value returned by Run, and crash is a Go runtime panic (index out of range,
nil dereference, or integer division by zero) that aborts the process rather
than returning an error. -/
inductive RunResult where
  | ok (st : VMState)
  | err (msg : String)
  | crash (msg : String)
deriving DecidableEq

/-- The VM: constant pool and instruction stream from the bytecode artifact,
plus the operand stack and stack pointer (vm.go). -/
structure VM where
  constants : List Object
  instructions : List Nat
  stack : List (Option Object)
  sp : Nat
deriving DecidableEq

/-- New creates a VM for a bytecode artifact with a zeroed stack of StackSize
slots and sp = 0 (vm.go). -/
def New (byteCode : Bytecode) : VM :=
  { constants := byteCode.Constants, instructions := byteCode.Instructions,
    stack := List.replicate StackSize none, sp := 0 }

/-- StackTop returns nil when the stack is empty, else the value at
stack[sp-1] (vm.go). -/
def StackTop (st : VMState) : Option Object :=
  if st.sp = 0 then none else st.stack.getD (st.sp - 1) none

/-- LastPoppedStackElem returns stack[sp], the slot left physically in place
by the most recent pop (vm.go). -/
def LastPoppedStackElem (st : VMState) : Option Object :=
  st.stack.getD st.sp none

/-- push fails with a stack overflow error when sp has reached StackSize;
otherwise it writes the object at stack[sp] and increments sp (vm.go). -/
def push (st : VMState) (obj : Object) : Except String VMState :=
  if st.sp ≥ StackSize then .error "stack overflow"
  else .ok ⟨st.stack.set st.sp (some obj), st.sp + 1⟩

/-- pop reads stack[sp-1] and decrements sp (vm.go). When sp = 0 the Go code
indexes stack[-1], a runtime panic, embedded here as none. -/
def pop (st : VMState) : Option (Option Object × VMState) :=
  if st.sp = 0 then none
  else some (st.stack.getD (st.sp - 1) none, ⟨st.stack, st.sp - 1⟩)

/-- Wrap-around of Go's 64-bit signed integer arithmetic: the value reduced
into the interval from -2^63 to 2^63 - 1. -/
def wrap64 (z : Int) : Int := (z + 2 ^ 63) % 2 ^ 64 - 2 ^ 63

/-- executeBinaryIntegerOperation computes the arithmetic result with Go's
int64 semantics and pushes it as a fresh Integer (vm.go). Division by zero is
a Go runtime panic; the quotient truncates toward zero (Int.tdiv), wrapping
on the single overflow case. An operand that is not an Integer would be a
failed type assertion in Go, another panic. -/
def executeBinaryIntegerOperation (st : VMState) (op : Nat) (left right : Object) : RunResult :=
  match left, right with
  | .Integer leftValue, .Integer rightValue =>
    let pushResult := fun (result : Int) =>
      match push st (.Integer result) with
      | .ok st1 => RunResult.ok st1
      | .error msg => RunResult.err msg
    if op = OpAdd then pushResult (wrap64 (leftValue + rightValue))
    else if op = OpSub then pushResult (wrap64 (leftValue - rightValue))
    else if op = OpMul then pushResult (wrap64 (leftValue * rightValue))
    else if op = OpDiv then
      if rightValue = 0 then .crash "integer divide by zero"
      else pushResult (wrap64 (leftValue.tdiv rightValue))
    else .err ("unknown integer operation: " ++ toString op)
  | _, _ => .crash "interface conversion"

/-- executeBinaryOperation pops the right operand, then the left, checks both
type tags, and dispatches to the integer case; any other type pairing is an
error naming both kinds (vm.go). Popping an empty stack or calling Type on a
nil slot is a Go runtime panic. -/
def executeBinaryOperation (st : VMState) (op : Nat) : RunResult :=
  match pop st with
  | none => .crash "index out of range"
  | some (rightSlot, st1) =>
    match pop st1 with
    | none => .crash "index out of range"
    | some (leftSlot, st2) =>
      match leftSlot, rightSlot with
      | some left, some right =>
        if left.type = INTEGER_OBJ ∧ right.type = INTEGER_OBJ then
          executeBinaryIntegerOperation st2 op left right
        else .err ("unsupported types for binary operation: " ++ left.type ++ " " ++ right.type)
      | _, _ => .crash "nil pointer dereference"

/-- The fetch-decode-execute loop of Run (vm.go): iterate the instruction
pointer over the byte stream. OpConstant decodes a 2-byte big-endian index
and pushes that constant (a short stream or an out-of-range index is a Go
panic); the four arithmetic opcodes dispatch to executeBinaryOperation;
OpPop discards the top of stack. The switch has no default case: any other
byte is skipped and the loop continues at the next byte.

The loop terminates because ip strictly increases; to keep the function
kernel-computable the recursion is structural on a fuel bound on the number
of remaining iterations. Fuel is checked only when another iteration is due,
so any fuel of at least ins.length - ip yields the loop's true result, and
Run supplies ins.length. -/
def runLoop (ins : List Nat) (constants : List Object) (st : VMState) (ip : Nat) : Nat → RunResult
  | 0 => if ip < ins.length then .crash "fuel exhausted" else .ok st
  | fuel + 1 =>
    if ip < ins.length then
      let op := ins.getD ip 0
      if op = OpConstant then
        if ip + 3 ≤ ins.length then
          let constIndex := ReadUint16 (ins.drop (ip + 1))
          if constIndex < constants.length then
            match push st (constants.getD constIndex (.Integer 0)) with
            | .ok st1 => runLoop ins constants st1 (ip + 3) fuel
            | .error msg => .err msg
          else .crash "index out of range"
        else .crash "index out of range"
      else if op = OpAdd ∨ op = OpSub ∨ op = OpMul ∨ op = OpDiv then
        match executeBinaryOperation st op with
        | .ok st1 => runLoop ins constants st1 (ip + 1) fuel
        | .err msg => .err msg
        | .crash msg => .crash msg
      else if op = OpPop then
        match pop st with
        | some (_, st1) => runLoop ins constants st1 (ip + 1) fuel
        | none => .crash "index out of range"
      else runLoop ins constants st (ip + 1) fuel
    else .ok st

/-- Run executes the VM's instruction stream from the start (vm.go). The fuel
ins.length bounds the iteration count, since every iteration advances ip by
at least one byte. -/
def Run (m : VM) : RunResult :=
  runLoop m.instructions m.constants ⟨m.stack, m.sp⟩ 0 m.instructions.length

end vm

/-- Test harness: compile an AST node from a fresh compiler with sufficient
fuel for its size. -/
def compileNode (node : ast.Node) : Except String compiler.Compiler :=
  compiler.Compile (compiler.nodeFuel node) compiler.New node

/-- Test harness mirroring the repl flow: compile an AST node from a fresh
compiler and run the resulting bytecode on a fresh VM, reporting a compile
failure distinctly. -/
def runCompiled (node : ast.Node) : vm.RunResult :=
  match compileNode node with
  | .ok c => vm.Run (vm.New c.Bytecode)
  | .error msg => .err ("compiler error: " ++ msg)

/-- Reference definition of the host's native 64-bit arithmetic for the
four Go operators on int64: wrap-around addition, subtraction and
multiplication, and quotient truncating toward zero (with the single
overflow case wrapping). -/
def goInt64Arith (op : String) (a b : Int) : Int :=
  if op = "+" then vm.wrap64 (a + b)
  else if op = "-" then vm.wrap64 (a - b)
  else if op = "*" then vm.wrap64 (a * b)
  else if op = "/" then vm.wrap64 (a.tdiv b)
  else 0

/-- Projection of a run outcome to the last popped stack element, defined
only for successful runs. -/
def lastPoppedOf : vm.RunResult → Option (Option object.Object)
  | .ok st => some (vm.LastPoppedStackElem st)
  | .err _ => none
  | .crash _ => none

/-- Wrap an expression in the statement context the parser produces for a
bare expression line: a program with one expression statement. -/
def exprProgram (e : ast.Node) : ast.Node :=
  .Program [.ExpressionStatement e]

/-- Well-formedness of the compiler's bookkeeping relative to its buffer:
the recorded positions never exceed the buffer length, and the previous
instruction does not sit after the last one. Holds for a fresh compiler and
is preserved by every Compile step. -/
def CompilerWF (c : compiler.Compiler) : Prop :=
  c.previousInstruction.Position ≤ c.lastInstruction.Position ∧
  c.lastInstruction.Position ≤ c.instructions.length

/-- How the compiler produced by a Compile call relates to the compiler it
started from: the buffer only grows, bytes below the starting length are
never modified (all patching stays inside the freshly emitted region), and
each bookkeeping field is either inherited or points into the new region.
The first disjunct of the previous-instruction clause records that the
previous instruction is inherited only together with the last one, which is
what rules out a retraction ever cutting below the starting length. -/
def Extends (c c1 : compiler.Compiler) : Prop :=
  c.instructions.length ≤ c1.instructions.length ∧
  c1.instructions.take c.instructions.length = c.instructions.take c.instructions.length ∧
  (c1.lastInstruction = c.lastInstruction ∨
    c.instructions.length ≤ c1.lastInstruction.Position) ∧
  ((c1.previousInstruction = c.previousInstruction ∧ c1.lastInstruction = c.lastInstruction) ∨
    c1.previousInstruction = c.lastInstruction ∨
    c.instructions.length ≤ c1.previousInstruction.Position)

/-- Test fixture: the compiler state produced by compiling
if (true) then 10 else 20 from a fresh compiler — OpTrue, the patched
OpJumpNotTruthy 10, OpConstant 0, the patched OpJump 13, OpConstant 1. -/
def claim6Example : compiler.Compiler :=
  ⟨[5, 13, 0, 10, 0, 0, 0, 12, 0, 13, 0, 0, 1],
    [.Integer 10, .Integer 20], ⟨0, 10⟩, ⟨12, 7⟩⟩

/-- Test fixture: a well-formed compiler state whose instruction buffer
already holds 65536 bytes, as after compiling a long enough prefix of a
program; a conditional compiled from here puts its jump targets beyond the
2-byte operand range. -/
def claim6BigStart : compiler.Compiler :=
  ⟨List.replicate 65536 0, [], ⟨0, 0⟩, ⟨0, 0⟩⟩

/-- The compiler after the condition true of the deep conditional: one
OpTrue byte appended at offset 65536. -/
def claim6BigC1 : compiler.Compiler :=
  (compiler.emit claim6BigStart code.OpTrue []).1

/-- The compiler after the placeholder OpJumpNotTruthy of the deep
conditional, emitted at offset 65537. -/
def claim6BigC2 : compiler.Compiler :=
  (compiler.emit claim6BigC1 code.OpJumpNotTruthy [9999]).1

/-- The compiler after the consequence 10 of the deep conditional: the
constant is pooled and OpConstant emitted at offset 65540. -/
def claim6BigC3 : compiler.Compiler :=
  (compiler.emit (compiler.addConstant claim6BigC2 (.Integer 10)).1 code.OpConstant
    [(compiler.addConstant claim6BigC2 (.Integer 10)).2]).1

/-- The compiler after the placeholder OpJump of the deep conditional,
emitted at offset 65543. -/
def claim6BigC5 : compiler.Compiler :=
  (compiler.emit claim6BigC3 code.OpJump [9999]).1

/-- The compiler after the OpJumpNotTruthy patch of the deep conditional:
the operand is rewritten to the buffer length 65546, which putUint16
truncates mod 2^16. -/
def claim6BigC6 : compiler.Compiler :=
  compiler.changeOperand claim6BigC5 claim6BigC1.instructions.length
    claim6BigC5.instructions.length

/-- The compiler after the alternative 20 of the deep conditional: the
second constant is pooled and OpConstant emitted at offset 65546. -/
def claim6BigC7 : compiler.Compiler :=
  (compiler.emit (compiler.addConstant claim6BigC6 (.Integer 20)).1 code.OpConstant
    [(compiler.addConstant claim6BigC6 (.Integer 20)).2]).1

/-- The final compiler of the deep conditional, after the OpJump patch to
the buffer length 65549, again truncated mod 2^16 by putUint16. -/
def claim6BigResult : compiler.Compiler :=
  compiler.changeOperand claim6BigC7 claim6BigC3.instructions.length
    claim6BigC7.instructions.length

/-- Bytes at or above 15 are not in the opcode definition table. -/
theorem definitions_eq_none_of_ge (op : Nat) (h : 15 ≤ op) : code.definitions op = none := by
  have h0 : op ≠ 0 := by omega
  have h1 : op ≠ 1 := by omega
  have h2 : op ≠ 2 := by omega
  have h3 : op ≠ 3 := by omega
  have h4 : op ≠ 4 := by omega
  have h5 : op ≠ 5 := by omega
  have h6 : op ≠ 6 := by omega
  have h7 : op ≠ 7 := by omega
  have h8 : op ≠ 8 := by omega
  have h9 : op ≠ 9 := by omega
  have h10 : op ≠ 10 := by omega
  have h11 : op ≠ 11 := by omega
  have h12 : op ≠ 12 := by omega
  have h13 : op ≠ 13 := by omega
  have h14 : op ≠ 14 := by omega
  simp [code.definitions, code.OpConstant, code.OpAdd, code.OpSub, code.OpMul, code.OpDiv,
    code.OpTrue, code.OpFalse, code.OpEqual, code.OpNotEqual, code.OpGreaterThan,
    code.OpMinus, code.OpBang, code.OpJump, code.OpJumpNotTruthy, code.OpPop,
    h0, h1, h2, h3, h4, h5, h6, h7, h8, h9, h10, h11, h12, h13, h14]

/-- Among the tabulated opcodes, only OpConstant, OpJump and OpJumpNotTruthy
have a non-empty operand width list. -/
theorem definitions_wide_bounded :
    ∀ op, op < 15 → ∀ d : code.Definition, code.definitions op = some d →
      d.OperandWidths ≠ [] →
      op ∈ ([code.OpConstant, code.OpJump, code.OpJumpNotTruthy] : List Nat) := by
  intro op hlt d hd hne
  interval_cases op <;>
    (injection hd with h; subst h; first | exact absurd rfl hne | decide)

/-- A byte without an entry in the definition table differs from each of the
opcode bytes the Run switch handles. -/
theorem undefined_opcode_facts (b : Nat) (h : code.definitions b = none) :
    b ≠ code.OpConstant ∧ b ≠ code.OpAdd ∧ b ≠ code.OpSub ∧ b ≠ code.OpMul ∧
    b ≠ code.OpDiv ∧ b ≠ code.OpPop := by
  refine ⟨?_, ?_, ?_, ?_, ?_, ?_⟩ <;>
    (rintro rfl;
     simp [code.definitions, code.OpConstant, code.OpAdd, code.OpSub, code.OpMul,
       code.OpDiv, code.OpTrue, code.OpFalse, code.OpEqual, code.OpNotEqual,
       code.OpGreaterThan, code.OpMinus, code.OpBang, code.OpJump,
       code.OpJumpNotTruthy, code.OpPop] at h)

/-- writeOperands only overwrites bytes in place, so it preserves the length
of the byte buffer. -/
theorem writeOperands_length (ws : List Nat) : ∀ (os : List Nat) (off : Nat) (bytes : List Nat),
    (code.writeOperands ws os off bytes).length = bytes.length := by
  induction ws with
  | nil => intro os off bytes; cases os <;> simp [code.writeOperands]
  | cons w ws ih =>
    intro os off bytes
    cases os with
    | nil => simp [code.writeOperands]
    | cons o os =>
      simp only [code.writeOperands, ih]
      split <;> simp [code.putUint16]

/-- C10: StackTop returns none (Go's nil) whenever the operand stack is
empty (sp = 0), and otherwise returns the value held at stack[sp-1]; when
sp is within the stack's length that read is in bounds. -/
theorem claim10_stacktop :
    (∀ st : vm.VMState, st.sp = 0 → vm.StackTop st = none) ∧
    (∀ st : vm.VMState, ∀ h1 : 0 < st.sp, ∀ h2 : st.sp ≤ st.stack.length,
      vm.StackTop st = st.stack.get ⟨st.sp - 1, by omega⟩) := by
  constructor
  · intro st h
    simp [vm.StackTop, h]
  · intro st h1 h2
    have hne : ¬ st.sp = 0 := by omega
    have hlt : st.sp - 1 < st.stack.length := by omega
    simp only [vm.StackTop, if_neg hne]
    rw [List.getD_eq_getElem?_getD, List.getElem?_eq_getElem hlt]
    simp [List.get_eq_getElem]

/-- Witness for C10 at a concrete empty stack and a concrete one-element
stack. -/
theorem claim10_witness :
    vm.StackTop ⟨[], 0⟩ = none ∧
    vm.StackTop ⟨[some (.Integer 3)], 1⟩ =
      ([some (object.Object.Integer 3)] : List (Option object.Object)).get ⟨0, by decide⟩ :=
  ⟨claim10_stacktop.1 ⟨[], 0⟩ rfl,
   claim10_stacktop.2 ⟨[some (.Integer 3)], 1⟩ (by decide) (by decide)⟩

/-- C8 counterexample: an operand value that does not fit the declared
2-byte width is truncated by Make, so decoding does not recover it. -/
theorem claim8_counterexample :
    ¬ (code.ReadUint16 ((code.Make code.OpConstant [65536]).drop 1) = 65536) := by
  decide

/-- C8 as amended: for the opcodes with non-zero operand widths (exactly
OpConstant, OpJump, OpJumpNotTruthy, each one 2-byte operand), Make followed
by the big-endian decode at the operand's offset recovers any operand value
below 2^16 exactly; Make returns the empty sequence for an unknown opcode,
and otherwise a sequence of length 1 plus the sum of the declared widths. -/
theorem claim8_roundtrip :
    (∀ op v : Nat, op ∈ ([code.OpConstant, code.OpJump, code.OpJumpNotTruthy] : List Nat) →
      v < 65536 → code.ReadUint16 ((code.Make op [v]).drop 1) = v) ∧
    (∀ (op : Nat) (d : code.Definition), code.definitions op = some d →
      d.OperandWidths ≠ [] →
      op ∈ ([code.OpConstant, code.OpJump, code.OpJumpNotTruthy] : List Nat)) ∧
    (∀ (op : Nat) (operands : List Nat), code.definitions op = none →
      code.Make op operands = []) ∧
    (∀ (op : Nat) (d : code.Definition) (operands : List Nat), code.definitions op = some d →
      operands.length ≤ d.OperandWidths.length →
      (code.Make op operands).length = 1 + d.OperandWidths.sum) := by
  refine ⟨?_, ?_, ?_, ?_⟩
  · intro op v hop hv
    simp only [List.mem_cons, List.not_mem_nil, or_false] at hop
    rcases hop with rfl | rfl | rfl
    · have h : code.ReadUint16 ((code.Make code.OpConstant [v]).drop 1) =
          256 * (v % 65536 / 256) + v % 256 := by with_unfolding_all rfl
      rw [h]; omega
    · have h : code.ReadUint16 ((code.Make code.OpJump [v]).drop 1) =
          256 * (v % 65536 / 256) + v % 256 := by with_unfolding_all rfl
      rw [h]; omega
    · have h : code.ReadUint16 ((code.Make code.OpJumpNotTruthy [v]).drop 1) =
          256 * (v % 65536 / 256) + v % 256 := by with_unfolding_all rfl
      rw [h]; omega
  · intro op d hd hne
    by_cases hlt : op < 15
    · exact definitions_wide_bounded op hlt d hd hne
    · rw [definitions_eq_none_of_ge op (by omega)] at hd
      cases hd
  · intro op operands h
    unfold code.Make
    rw [h]
  · intro op d operands hd hlen
    unfold code.Make
    rw [hd]
    simp [writeOperands_length]
    omega

/-- Witness for C8's amended round trip at OpConstant with operand 65534. -/
theorem claim8_witness :
    code.ReadUint16 ((code.Make code.OpConstant [65534]).drop 1) = 65534 :=
  claim8_roundtrip.1 code.OpConstant 65534 (by decide) (by decide)

/-- C2 counterexample: the identifier node kind has no translation in the
snapshot's Compile switch, yet Compile succeeds on it (the Go type switch
has no default case and falls through to return nil), so an untranslated
node kind does not produce a compile-time failure. -/
theorem claim2_counterexample :
    compileNode (.Identifier "x") = .ok compiler.New := rfl

/-- C2 as amended: an unrecognized prefix or infix operator is a
compile-time failure whose message names the operator (once its operand
subtrees compile), but AST node kinds outside the handled set (identifier
and let-binding nodes) compile silently to success, leaving the compiler
state unchanged. -/
theorem claim2_operators :
    (∀ (fuel : Nat) (c c1 : compiler.Compiler) (op : String) (right : ast.Node),
      op ≠ "-" → op ≠ "!" → compiler.Compile fuel c right = .ok c1 →
      compiler.Compile (fuel + 1) c (.PrefixExpression op right) =
        .error ("unkown operator: " ++ op)) ∧
    (∀ (fuel : Nat) (c c1 c2 : compiler.Compiler) (op : String) (left right : ast.Node),
      op ∉ (["<", "+", "-", "*", "/", ">", "==", "!="] : List String) →
      compiler.Compile fuel c left = .ok c1 → compiler.Compile fuel c1 right = .ok c2 →
      compiler.Compile (fuel + 1) c (.InfixExpression left op right) =
        .error ("unkown operator: " ++ op)) ∧
    (∀ (fuel : Nat) (c : compiler.Compiler) (name : String),
      compiler.Compile (fuel + 1) c (.Identifier name) = .ok c) ∧
    (∀ (fuel : Nat) (c : compiler.Compiler) (name : String) (value : ast.Node),
      compiler.Compile (fuel + 1) c (.LetStatement name value) = .ok c) := by
  refine ⟨?_, ?_, fun fuel c name => rfl, fun fuel c name value => rfl⟩
  · intro fuel c c1 op right hne1 hne2 hok
    simp only [compiler.Compile]
    simp only [hok]
    simp [hne1, hne2]
  · intro fuel c c1 c2 op left right hop hleft hright
    have hne : op ≠ "<" ∧ op ≠ "+" ∧ op ≠ "-" ∧ op ≠ "*" ∧ op ≠ "/" ∧ op ≠ ">" ∧
        op ≠ "==" ∧ op ≠ "!=" := by
      simp only [List.mem_cons, List.not_mem_nil, or_false, not_or] at hop
      exact hop
    obtain ⟨h1, h2, h3, h4, h5, h6, h7, h8⟩ := hne
    simp only [compiler.Compile, if_neg h1]
    simp only [hleft]
    simp only [hright]
    simp [h2, h3, h4, h5, h6, h7, h8]

/-- Witness for C2's amended operator failures, at the unknown prefix
operator % applied to an identifier operand. -/
theorem claim2_witness :
    compiler.Compile 2 compiler.New (.PrefixExpression "%" (.Identifier "y")) =
      .error ("unkown operator: " ++ "%") :=
  claim2_operators.1 1 compiler.New compiler.New "%" (.Identifier "y")
    (by decide) (by decide) rfl

/-- C1 counterexample: byte 200 is not a defined opcode, yet Run on the
one-byte stream [200] completes successfully with an untouched machine
state instead of aborting with an execution error naming the byte. -/
theorem claim1_counterexample :
    vm.Run (vm.New ⟨[200], []⟩) = .ok ⟨List.replicate vm.StackSize none, 0⟩ := rfl

/-- C1 as amended: the Run switch has no default case, so a byte that is
not a defined opcode is silently skipped (the loop moves to the next byte
with the state unchanged and never aborts); the byte value is only
diagnosed by code.Lookup, which returns the error naming it. -/
theorem claim1_unknown_opcode :
    (∀ (ins : List Nat) (cs : List object.Object) (st : vm.VMState) (ip fuel : Nat),
      ip < ins.length → code.definitions (ins.getD ip 0) = none →
      vm.runLoop ins cs st ip (fuel + 1) = vm.runLoop ins cs st (ip + 1) fuel) ∧
    (∀ b : Nat, code.definitions b = none →
      code.Lookup b = .error ("opcode " ++ toString b ++ " undefined")) := by
  constructor
  · intro ins cs st ip fuel hip hdef
    obtain ⟨hC, hA, hS, hM, hD, hP⟩ := undefined_opcode_facts (ins.getD ip 0) hdef
    simp only [vm.runLoop, if_pos hip]
    rw [if_neg hC]
    rw [if_neg (show ¬ (ins.getD ip 0 = code.OpAdd ∨ ins.getD ip 0 = code.OpSub ∨
        ins.getD ip 0 = code.OpMul ∨ ins.getD ip 0 = code.OpDiv) by
      simp only [not_or]
      exact ⟨hA, hS, hM, hD⟩)]
    rw [if_neg hP]
  · intro b h
    simp [code.Lookup, h]

/-- Witness for C1's amended step behavior on the one-byte stream [200]. -/
theorem claim1_witness :
    vm.runLoop [200] [] ⟨[], 0⟩ 0 1 = vm.runLoop [200] [] ⟨[], 0⟩ 1 0 :=
  claim1_unknown_opcode.1 [200] [] ⟨[], 0⟩ 0 0 (by decide) (by decide)

/-- C3: the snapshot's Run has no cases for OpBang (nor OpTrue/OpFalse), so
the compiled bang programs do not compute boolean negation. Running the
compiled form of the expression statement for bang-5 skips the OpBang byte
and pops the 5, leaving 5 (not false) as the last popped element; the same
happens for double-bang-5 (leaving 5, not true); and running the compiled
form for bang-false pops an empty stack (Go indexes stack[-1], a runtime
panic), because OpFalse pushed nothing. -/
theorem claim3_code_divergence :
    runCompiled (exprProgram (.PrefixExpression "!" (.IntegerLiteral 5))) =
      .ok ⟨(List.replicate vm.StackSize (none : Option object.Object)).set 0
            (some (.Integer 5)), 0⟩ ∧
    runCompiled (exprProgram (.PrefixExpression "!" (.PrefixExpression "!" (.IntegerLiteral 5)))) =
      .ok ⟨(List.replicate vm.StackSize (none : Option object.Object)).set 0
            (some (.Integer 5)), 0⟩ ∧
    runCompiled (exprProgram (.PrefixExpression "!" (.BooleanLiteral false))) =
      .crash "index out of range" :=
  ⟨rfl, rfl, rfl⟩

/-- C7: the compiler side of the claim holds, as the first conjunct shows:
compiling the conditional with consequence 10 retracts the trailing OpPop
inside the branch (the emitted stream has no OpPop byte before the final
statement-level one, and the patched jump target is 7). But the snapshot's
Run has no cases for OpTrue or OpJumpNotTruthy: it skips both bytes, then
misreads the patched operand byte 0 at offset 2 as OpConstant, decodes
constant index 1792 from the following bytes, and panics on the
out-of-range constant access, instead of leaving 10 as the last popped
element. -/
theorem claim7_code_divergence :
    compileNode (exprProgram (.IfExpression (.BooleanLiteral true)
        (.BlockStatement [.ExpressionStatement (.IntegerLiteral 10)]) none)) =
      .ok ⟨[5, 13, 0, 7, 0, 0, 0, 14], [.Integer 10], ⟨14, 7⟩, ⟨0, 4⟩⟩ ∧
    runCompiled (exprProgram (.IfExpression (.BooleanLiteral true)
        (.BlockStatement [.ExpressionStatement (.IntegerLiteral 10)]) none)) =
      .crash "index out of range" :=
  ⟨rfl, rfl⟩

/-- The less-than branch of Compile produces exactly the bytecode of the
operand-swapped greater-than expression, whatever the operand expressions
and the fuel. -/
theorem compile_lt_swap (fuel : Nat) (c : compiler.Compiler) (a b : ast.Node) :
    compiler.Compile (fuel + 1) c (.InfixExpression a "<" b) =
      compiler.Compile (fuel + 1) c (.InfixExpression b ">" a) := by
  simp only [compiler.Compile, if_true]
  rw [if_neg (by decide : ¬ (">" : String) = "<")]
  cases hb : compiler.Compile fuel c b with
  | error msg => simp only [hb]
  | ok c1 =>
    simp only [hb]
    cases ha : compiler.Compile fuel c1 a with
    | error msg => simp only [ha]
    | ok c2 =>
      simp only [ha]
      rfl

/-- Lifting compile_lt_swap through the expression-statement program
wrapper. -/
theorem compile_prog_lt_swap (fuel : Nat) (c : compiler.Compiler) (a b : ast.Node) :
    compiler.Compile fuel c (exprProgram (.InfixExpression a "<" b)) =
      compiler.Compile fuel c (exprProgram (.InfixExpression b ">" a)) := by
  match fuel with
  | 0 => rfl
  | 1 => rfl
  | 2 => rfl
  | 3 => rfl
  | f + 4 =>
    simp only [exprProgram, compiler.Compile, compiler.compileStatements, if_true]
    rw [if_neg (by decide : ¬ (">" : String) = "<")]
    cases hb : compiler.Compile f c b with
    | error msg => simp only [hb]
    | ok c1 =>
      simp only [hb]
      cases ha : compiler.Compile f c1 a with
      | error msg => simp only [ha]
      | ok c2 =>
        simp only [ha]
        rfl

/-- The two statement programs have the same fuel bound, since nodeFuel of
an infix node is symmetric in its operands. -/
theorem nodeFuel_lt_swap (a b : ast.Node) :
    compiler.nodeFuel (exprProgram (.InfixExpression a "<" b)) =
      compiler.nodeFuel (exprProgram (.InfixExpression b ">" a)) := by
  simp only [exprProgram, compiler.nodeFuel, compiler.nodesFuel]
  omega

/-- C5: compiling an integer-free-form less-than emits the code for the
right operand, then the code for the left operand, then OpGreaterThan (there
is no dedicated less-than opcode); the compilation result coincides with
that of the operand-swapped greater-than expression, so the compiled
program evaluates identically to evaluating b > a directly. -/
theorem claim5_lessthan :
    (∀ (fuel : Nat) (c c1 c2 : compiler.Compiler) (a b : ast.Node),
      compiler.Compile fuel c b = .ok c1 → compiler.Compile fuel c1 a = .ok c2 →
      compiler.Compile (fuel + 1) c (.InfixExpression a "<" b) =
        .ok (compiler.emit c2 code.OpGreaterThan []).1) ∧
    (∀ (fuel : Nat) (c : compiler.Compiler) (a b : ast.Node),
      compiler.Compile (fuel + 1) c (.InfixExpression a "<" b) =
        compiler.Compile (fuel + 1) c (.InfixExpression b ">" a)) ∧
    (∀ (a b : ast.Node),
      runCompiled (exprProgram (.InfixExpression a "<" b)) =
        runCompiled (exprProgram (.InfixExpression b ">" a))) := by
  refine ⟨?_, fun fuel c a b => compile_lt_swap fuel c a b, ?_⟩
  · intro fuel c c1 c2 a b hb ha
    simp only [compiler.Compile, if_true]
    simp only [hb]
    simp only [ha]
  · intro a b
    unfold runCompiled compileNode
    rw [nodeFuel_lt_swap, compile_prog_lt_swap]

/-- Witness for C5's emission order at 1 < 2 from a fresh compiler. -/
theorem claim5_witness :
    compiler.Compile 4 compiler.New
        (.InfixExpression (.IntegerLiteral 1) "<" (.IntegerLiteral 2)) =
      .ok (compiler.emit
        ⟨[0, 0, 0, 0, 0, 1], [.Integer 2, .Integer 1], ⟨0, 3⟩, ⟨0, 0⟩⟩
        code.OpGreaterThan []).1 :=
  claim5_lessthan.1 3 compiler.New
    ⟨[0, 0, 0], [.Integer 2], ⟨0, 0⟩, ⟨0, 0⟩⟩
    ⟨[0, 0, 0, 0, 0, 1], [.Integer 2, .Integer 1], ⟨0, 3⟩, ⟨0, 0⟩⟩
    (.IntegerLiteral 1) (.IntegerLiteral 2) rfl rfl

/-- The division handler checks the divisor first (a zero divisor is the Go
runtime's division panic) and otherwise pushes the truncated quotient. -/
theorem execIntDiv (st : vm.VMState) (a b : Int) (hb : b ≠ 0) :
    vm.executeBinaryIntegerOperation st code.OpDiv (.Integer a) (.Integer b) =
      match vm.push st (.Integer (vm.wrap64 (a.tdiv b))) with
      | .ok st1 => vm.RunResult.ok st1
      | .error msg => vm.RunResult.err msg := by
  have h : vm.executeBinaryIntegerOperation st code.OpDiv (.Integer a) (.Integer b) =
      if b = 0 then vm.RunResult.crash "integer divide by zero"
      else match vm.push st (.Integer (vm.wrap64 (a.tdiv b))) with
        | .ok st1 => vm.RunResult.ok st1
        | .error msg => vm.RunResult.err msg := by with_unfolding_all rfl
  rw [h, if_neg hb]

/-- C4 counterexample: at a = 1, b = 0 and the / operator the pipeline does
not yield an arithmetic result; the division handler propagates the host's
division-by-zero fault (a Go runtime panic). -/
theorem claim4_counterexample :
    runCompiled (exprProgram (.InfixExpression (.IntegerLiteral 1) "/" (.IntegerLiteral 0))) =
      .crash "integer divide by zero" := rfl

/-- C4 as amended: for all integer literals a and b and each operator in
+, -, *, /, with a non-zero b when the operator is /, compiling and running
the expression statement a op b succeeds and leaves the host's native
64-bit arithmetic result (wrap-around, with / truncating toward zero) as
the last popped stack element. The VM pops the right operand first, then
the left — visible in the non-commutative operators computing a op b, not
b op a — and pushes the result as a freshly constructed Integer. -/
theorem claim4_arithmetic :
    ∀ (a b : Int) (op : String), op ∈ (["+", "-", "*", "/"] : List String) →
    (op = "/" → b ≠ 0) →
    lastPoppedOf (runCompiled (exprProgram
        (.InfixExpression (.IntegerLiteral a) op (.IntegerLiteral b)))) =
      some (some (.Integer (goInt64Arith op a b))) := by
  intro a b op hop hdiv
  simp only [List.mem_cons, List.not_mem_nil, or_false] at hop
  rcases hop with rfl | rfl | rfl | rfl
  · with_unfolding_all rfl
  · with_unfolding_all rfl
  · with_unfolding_all rfl
  · have hb : b ≠ 0 := hdiv rfl
    have hx : lastPoppedOf (runCompiled (exprProgram
          (.InfixExpression (.IntegerLiteral a) "/" (.IntegerLiteral b)))) =
        lastPoppedOf (match vm.executeBinaryIntegerOperation
            ⟨((List.replicate vm.StackSize (none : Option object.Object)).set 0
                (some (.Integer a))).set 1 (some (.Integer b)), 0⟩
            code.OpDiv (.Integer a) (.Integer b) with
          | .ok st1 => vm.runLoop [0, 0, 0, 0, 0, 1, 4, 14]
              [object.Object.Integer a, object.Object.Integer b] st1 7 5
          | .err msg => .err msg
          | .crash msg => .crash msg) := by with_unfolding_all rfl
    rw [hx, execIntDiv _ a b hb]
    with_unfolding_all rfl

/-- Witness for C4's amended arithmetic at 7 / 2, truncating toward zero. -/
theorem claim4_witness :
    lastPoppedOf (runCompiled (exprProgram
        (.InfixExpression (.IntegerLiteral 7) "/" (.IntegerLiteral 2)))) =
      some (some (.Integer (goInt64Arith "/" 7 2))) :=
  claim4_arithmetic 7 2 "/" (by decide) (fun _ => by decide)

/-- A successful push happened strictly below capacity: it increments sp by
one and overwrites one slot in place, preserving the stack's length. -/
theorem push_ok_facts (st : vm.VMState) (obj : object.Object) (st1 : vm.VMState)
    (hp : vm.push st obj = .ok st1) :
    st1.sp = st.sp + 1 ∧ st.sp < vm.StackSize ∧ st1.stack.length = st.stack.length := by
  unfold vm.push at hp
  by_cases h : st.sp ≥ vm.StackSize
  · rw [if_pos h] at hp; cases hp
  · rw [if_neg h] at hp
    injection hp with h1
    subst h1
    exact ⟨rfl, by omega, by simp⟩

/-- A successful pop happened on a non-empty stack: it decrements sp by one
and leaves the stack contents untouched. -/
theorem pop_some_facts (st : vm.VMState) (x : Option object.Object) (st1 : vm.VMState)
    (hp : vm.pop st = some (x, st1)) :
    st1.sp + 1 = st.sp ∧ st1.stack = st.stack := by
  unfold vm.pop at hp
  by_cases h : st.sp = 0
  · rw [if_pos h] at hp; cases hp
  · rw [if_neg h] at hp
    simp only [Option.some.injEq, Prod.mk.injEq] at hp
    obtain ⟨h1, h2⟩ := hp
    subst h2
    refine ⟨?_, rfl⟩
    show st.sp - 1 + 1 = st.sp
    omega

/-- A successful integer operation pushes exactly one result value from a
state strictly below capacity, preserving the stack's length. -/
theorem execIntOp_ok_facts (st : vm.VMState) (op : Nat) (l r : object.Object)
    (st1 : vm.VMState)
    (h : vm.executeBinaryIntegerOperation st op l r = .ok st1) :
    st1.sp = st.sp + 1 ∧ st.sp < vm.StackSize ∧ st1.stack.length = st.stack.length := by
  unfold vm.executeBinaryIntegerOperation at h
  split at h
  · split_ifs at h
    all_goals
      first
        | cases h
        | (dsimp only at h
           split at h
           · rename_i stP hpush
             injection h with h1
             subst h1
             exact push_ok_facts _ _ _ hpush
           · cases h)
  · cases h

/-- A successful binary operation pops twice and pushes once, so from a
well-bounded state it yields a well-bounded state. -/
theorem executeBinaryOperation_ok_bounds (st : vm.VMState) (op : Nat) (st1 : vm.VMState)
    (h : vm.executeBinaryOperation st op = .ok st1)
    (hsp : st.sp ≤ vm.StackSize) (hlen : st.stack.length = vm.StackSize) :
    st1.sp ≤ vm.StackSize ∧ st1.stack.length = vm.StackSize := by
  unfold vm.executeBinaryOperation at h
  cases hp1 : vm.pop st with
  | none => rw [hp1] at h; cases h
  | some pr1 =>
    obtain ⟨rightSlot, stA⟩ := pr1
    simp only [hp1] at h
    cases hp2 : vm.pop stA with
    | none => rw [hp2] at h; cases h
    | some pr2 =>
      obtain ⟨leftSlot, stB⟩ := pr2
      simp only [hp2] at h
      obtain ⟨hA1, hA2⟩ := pop_some_facts st rightSlot stA hp1
      obtain ⟨hB1, hB2⟩ := pop_some_facts stA leftSlot stB hp2
      have hlenB : stB.stack.length = vm.StackSize := by rw [hB2, hA2]; exact hlen
      cases leftSlot with
      | none => cases rightSlot <;> (dsimp only at h; cases h)
      | some l =>
        cases rightSlot with
        | none => dsimp only at h; cases h
        | some r =>
          dsimp only at h
          split_ifs at h
          obtain ⟨he1, he2, he3⟩ := execIntOp_ok_facts stB op l r st1 h
          constructor
          · omega
          · rw [he3]; exact hlenB

/-- Every successful run of the fetch-decode-execute loop preserves the
stack bounds: starting from sp at most StackSize on a stack of exactly
StackSize slots, the final state again satisfies both. -/
theorem runLoop_ok_bounds (ins : List Nat) (cs : List object.Object) :
    ∀ (fuel : Nat) (st : vm.VMState) (ip : Nat) (st1 : vm.VMState),
      st.sp ≤ vm.StackSize → st.stack.length = vm.StackSize →
      vm.runLoop ins cs st ip fuel = .ok st1 →
      st1.sp ≤ vm.StackSize ∧ st1.stack.length = vm.StackSize := by
  intro fuel
  induction fuel with
  | zero =>
    intro st ip st1 hsp hlen hrun
    unfold vm.runLoop at hrun
    by_cases hip : ip < ins.length
    · rw [if_pos hip] at hrun; cases hrun
    · rw [if_neg hip] at hrun
      injection hrun with h1
      subst h1
      exact ⟨hsp, hlen⟩
  | succ fuel ih =>
    intro st ip st1 hsp hlen hrun
    unfold vm.runLoop at hrun
    by_cases hip : ip < ins.length
    · rw [if_pos hip] at hrun
      dsimp only at hrun
      by_cases hC : ins.getD ip 0 = code.OpConstant
      · rw [if_pos hC] at hrun
        by_cases h3 : ip + 3 ≤ ins.length
        · rw [if_pos h3] at hrun
          by_cases hidx : code.ReadUint16 (ins.drop (ip + 1)) < cs.length
          · rw [if_pos hidx] at hrun
            split at hrun
            · rename_i stP hpush
              obtain ⟨he1, he2, he3⟩ := push_ok_facts st _ stP hpush
              exact ih stP (ip + 3) st1 (by omega) (by rw [he3]; exact hlen) hrun
            · cases hrun
          · rw [if_neg hidx] at hrun; cases hrun
        · rw [if_neg h3] at hrun; cases hrun
      · rw [if_neg hC] at hrun
        by_cases hAr : ins.getD ip 0 = code.OpAdd ∨ ins.getD ip 0 = code.OpSub ∨
            ins.getD ip 0 = code.OpMul ∨ ins.getD ip 0 = code.OpDiv
        · rw [if_pos hAr] at hrun
          split at hrun
          · rename_i stB hexec
            obtain ⟨he1, he2⟩ := executeBinaryOperation_ok_bounds st _ stB hexec hsp hlen
            exact ih stB (ip + 1) st1 he1 he2 hrun
          · cases hrun
          · cases hrun
        · rw [if_neg hAr] at hrun
          by_cases hP : ins.getD ip 0 = code.OpPop
          · rw [if_pos hP] at hrun
            split at hrun
            · rename_i x stB hpop
              obtain ⟨he1, he2⟩ := pop_some_facts st x stB hpop
              exact ih stB (ip + 1) st1 (by omega) (by rw [he2]; exact hlen) hrun
            · cases hrun
          · rw [if_neg hP] at hrun
            exact ih st (ip + 1) st1 hsp hlen hrun
    · rw [if_neg hip] at hrun
      injection hrun with h1
      subst h1
      exact ⟨hsp, hlen⟩

/-- C9: the operand stack respects 0 ≤ sp ≤ StackSize throughout execution:
a push at capacity fails with the stack-overflow error and writes nothing; a
successful push happened strictly below capacity and never grows the fixed
stack; a pop only ever decrements a positive sp (sp is a natural number, so
it can never pass below zero, and the Go code panics rather than read
stack[-1]); and a completed run from a well-bounded state ends in a
well-bounded state, the loop preserving the bounds at every step as the
inductive proof traverses each opcode handler. -/
theorem claim9_stack_invariant :
    (∀ (st : vm.VMState) (obj : object.Object), vm.StackSize ≤ st.sp →
      vm.push st obj = .error "stack overflow") ∧
    (∀ (st : vm.VMState) (obj : object.Object) (st1 : vm.VMState),
      vm.push st obj = .ok st1 →
      st.sp < vm.StackSize ∧ st1.sp = st.sp + 1 ∧ st1.stack.length = st.stack.length) ∧
    (∀ (st : vm.VMState) (x : Option object.Object) (st1 : vm.VMState),
      vm.pop st = some (x, st1) → st1.sp + 1 = st.sp) ∧
    (∀ (ins : List Nat) (cs : List object.Object) (fuel : Nat) (st : vm.VMState)
       (ip : Nat) (st1 : vm.VMState),
      st.sp ≤ vm.StackSize → st.stack.length = vm.StackSize →
      vm.runLoop ins cs st ip fuel = .ok st1 →
      st1.sp ≤ vm.StackSize ∧ st1.stack.length = vm.StackSize) := by
  refine ⟨?_, ?_, ?_, fun ins cs fuel st ip st1 => runLoop_ok_bounds ins cs fuel st ip st1⟩
  · intro st obj h
    unfold vm.push
    rw [if_pos h]
  · intro st obj st1 hp
    obtain ⟨h1, h2, h3⟩ := push_ok_facts st obj st1 hp
    exact ⟨h2, h1, h3⟩
  · intro st x st1 hp
    exact (pop_some_facts st x st1 hp).1

/-- Reading a set list at the written index. -/
theorem getD_set_self (l : List Nat) (i a : Nat) (h : i < l.length) :
    (l.set i a).getD i 0 = a := by
  rw [List.getD_eq_getElem?_getD, List.getElem?_set_eq_of_lt a h]
  rfl

/-- Reading a set list away from the written index. -/
theorem getD_set_ne (l : List Nat) (i j a : Nat) (h : i ≠ j) :
    (l.set i a).getD j 0 = l.getD j 0 := by
  rw [List.getD_eq_getElem?_getD, List.getElem?_set_ne h, ← List.getD_eq_getElem?_getD]

/-- Taking strictly below a written index ignores the write. -/
theorem take_set_of_le (a : Nat) (l : List Nat) (n m : Nat) (h : m ≤ n) :
    (l.set n a).take m = l.take m := by
  apply List.ext_getElem?
  intro i
  rw [List.getElem?_take, List.getElem?_take]
  split
  · next h2 => exact List.getElem?_set_ne (by omega)
  · rfl

/-- Reading below an index where two lists share their prefix. -/
theorem getD_eq_of_take_eq (l1 l2 : List Nat) (n i : Nat)
    (h : l1.take n = l2.take n) (hi : i < n) :
    l1.getD i 0 = l2.getD i 0 := by
  rw [List.getD_eq_getElem?_getD, List.getD_eq_getElem?_getD,
    ← List.getElem?_take_of_lt (l := l1) (n := n) hi,
    ← List.getElem?_take_of_lt (l := l2) (n := n) hi, h]

/-- Reading a dropped list is reading at an offset. -/
theorem getD_drop (l : List Nat) (k i : Nat) :
    (l.drop k).getD i 0 = l.getD (k + i) 0 := by
  rw [List.getD_eq_getElem?_getD, List.getD_eq_getElem?_getD, List.getElem?_drop]

/-- ReadUint16 of a stream at an offset, in terms of the two bytes there. -/
theorem readUint16_drop (l : List Nat) (k : Nat) :
    code.ReadUint16 (l.drop (k + 1)) = 256 * l.getD (k + 1) 0 + l.getD (k + 2) 0 := by
  unfold code.ReadUint16
  rw [getD_drop, getD_drop]

/-- overwrite preserves the length of the buffer. -/
theorem overwrite_length (repl : List Nat) : ∀ (l : List Nat) (pos : Nat),
    (compiler.overwrite l pos repl).length = l.length := by
  induction repl with
  | nil => intro l pos; rfl
  | cons b bs ih => intro l pos; rw [compiler.overwrite, ih]; simp

/-- overwrite leaves every byte outside the written window unchanged. -/
theorem overwrite_getD_outside (repl : List Nat) : ∀ (l : List Nat) (pos i : Nat),
    (i < pos ∨ pos + repl.length ≤ i) →
    (compiler.overwrite l pos repl).getD i 0 = l.getD i 0 := by
  induction repl with
  | nil => intro l pos i _; rfl
  | cons b bs ih =>
    intro l pos i hi
    rw [compiler.overwrite, ih (l.set pos b) (pos + 1) i (by simp at hi ⊢; omega)]
    exact getD_set_ne l pos i b (by simp at hi; omega)

/-- overwrite places the replacement bytes at their window positions. -/
theorem overwrite_getD_inside (repl : List Nat) : ∀ (l : List Nat) (pos i : Nat),
    i < repl.length → pos + repl.length ≤ l.length →
    (compiler.overwrite l pos repl).getD (pos + i) 0 = repl.getD i 0 := by
  induction repl with
  | nil => intro l pos i hi _; cases hi
  | cons b bs ih =>
    intro l pos i hi hlen
    rw [compiler.overwrite]
    cases i with
    | zero =>
      rw [overwrite_getD_outside bs (l.set pos b) (pos + 1) (pos + 0) (by omega)]
      simpa using getD_set_self l pos b (by simp at hlen; omega)
    | succ j =>
      have h1 : pos + (j + 1) = (pos + 1) + j := by omega
      rw [h1, ih (l.set pos b) (pos + 1) j (by simp at hi; omega) (by simp at hlen ⊢; omega)]
      rfl

/-- overwrite keeps any prefix strictly below the written window. -/
theorem overwrite_take (repl : List Nat) : ∀ (l : List Nat) (pos n : Nat), n ≤ pos →
    (compiler.overwrite l pos repl).take n = l.take n := by
  induction repl with
  | nil => intro l pos n _; rfl
  | cons b bs ih =>
    intro l pos n hn
    rw [compiler.overwrite, ih (l.set pos b) (pos + 1) n (by omega)]
    exact take_set_of_le b l pos n hn

/-- Witness for C9 at a full stack (push fails with the overflow error) and
at a one-byte run from the initial state. -/
theorem claim9_witness :
    vm.push ⟨List.replicate vm.StackSize none, vm.StackSize⟩ (.Integer 0) =
      .error "stack overflow" ∧
    ((⟨List.replicate vm.StackSize none, 0⟩ : vm.VMState).sp ≤ vm.StackSize ∧
      (⟨List.replicate vm.StackSize none, 0⟩ : vm.VMState).stack.length = vm.StackSize) :=
  ⟨claim9_stack_invariant.1 ⟨List.replicate vm.StackSize none, vm.StackSize⟩
      (.Integer 0) (by decide),
   claim9_stack_invariant.2.2.2 [code.OpPop + 100] [] 1
      ⟨List.replicate vm.StackSize none, 0⟩ 0 ⟨List.replicate vm.StackSize none, 0⟩
      (by decide) (by simp) rfl⟩

/-- Extends is reflexive. -/
theorem Extends_refl (c : compiler.Compiler) : Extends c c :=
  ⟨Nat.le_refl _, rfl, Or.inl rfl, Or.inl ⟨rfl, rfl⟩⟩

/-- Extends is transitive. -/
theorem Extends_trans {c c1 c2 : compiler.Compiler}
    (h1 : Extends c c1) (h2 : Extends c1 c2) : Extends c c2 := by
  obtain ⟨l1, t1, la1, p1⟩ := h1
  obtain ⟨l2, t2, la2, p2⟩ := h2
  refine ⟨Nat.le_trans l1 l2, ?_, ?_, ?_⟩
  · have h3 : c2.instructions.take c.instructions.length =
        c1.instructions.take c.instructions.length := by
      have h4 := congrArg (fun l => l.take c.instructions.length) t2
      simpa [List.take_take, Nat.min_eq_left l1] using h4
    rw [h3, t1]
  · rcases la2 with h | h
    · rw [h]; exact la1
    · right; omega
  · rcases p2 with ⟨hp, hl⟩ | h | h
    · rw [hp, hl]; exact p1
    · rw [h]
      rcases la1 with h1 | h1
      · right; left; exact h1
      · right; right; exact h1
    · right; right; omega

/-- The components of an emit step, read off the definition. -/
theorem emit_fields (c : compiler.Compiler) (op : Nat) (xs : List Nat) :
    (compiler.emit c op xs).1.instructions = c.instructions ++ code.Make op xs ∧
    (compiler.emit c op xs).1.constants = c.constants ∧
    (compiler.emit c op xs).1.lastInstruction = ⟨op, c.instructions.length⟩ ∧
    (compiler.emit c op xs).1.previousInstruction = c.lastInstruction ∧
    (compiler.emit c op xs).2 = c.instructions.length :=
  ⟨rfl, rfl, rfl, rfl, rfl⟩

/-- Emitting an instruction extends the compiler. -/
theorem emit_extends (c : compiler.Compiler) (op : Nat) (xs : List Nat) :
    Extends c (compiler.emit c op xs).1 := by
  refine ⟨by simp [(emit_fields c op xs).1], ?_, ?_, ?_⟩
  · rw [(emit_fields c op xs).1, List.take_append_of_le_length (Nat.le_refl _)]
  · right
    rw [(emit_fields c op xs).2.2.1]
  · right; left
    exact (emit_fields c op xs).2.2.2.1

/-- Emitting preserves well-formedness. -/
theorem emit_wf {c : compiler.Compiler} (h : CompilerWF c) (op : Nat) (xs : List Nat) :
    CompilerWF (compiler.emit c op xs).1 := by
  obtain ⟨h1, h2⟩ := h
  constructor
  · rw [(emit_fields c op xs).2.2.1, (emit_fields c op xs).2.2.2.1]
    exact h2
  · rw [(emit_fields c op xs).2.2.1, (emit_fields c op xs).1]
    simp

/-- addConstant changes only the constant pool. -/
theorem addConstant_fields (c : compiler.Compiler) (obj : object.Object) :
    (compiler.addConstant c obj).1.instructions = c.instructions ∧
    (compiler.addConstant c obj).1.lastInstruction = c.lastInstruction ∧
    (compiler.addConstant c obj).1.previousInstruction = c.previousInstruction ∧
    (compiler.addConstant c obj).2 = c.constants.length :=
  ⟨rfl, rfl, rfl, rfl⟩

/-- addConstant extends the compiler and preserves well-formedness. -/
theorem addConstant_extends (c : compiler.Compiler) (obj : object.Object) :
    Extends c (compiler.addConstant c obj).1 ∧
    (CompilerWF c → CompilerWF (compiler.addConstant c obj).1) :=
  ⟨⟨Nat.le_refl _, rfl, Or.inl rfl, Or.inl ⟨rfl, rfl⟩⟩, fun h => h⟩

/-- The components of a changeOperand step. -/
theorem changeOperand_fields (c : compiler.Compiler) (pos v : Nat) :
    (compiler.changeOperand c pos v).instructions =
      compiler.overwrite c.instructions pos
        (code.Make (c.instructions.getD pos 0) [v]) ∧
    (compiler.changeOperand c pos v).constants = c.constants ∧
    (compiler.changeOperand c pos v).lastInstruction = c.lastInstruction ∧
    (compiler.changeOperand c pos v).previousInstruction = c.previousInstruction :=
  ⟨rfl, rfl, rfl, rfl⟩

/-- Patching preserves the buffer length. -/
theorem changeOperand_length (c : compiler.Compiler) (pos v : Nat) :
    (compiler.changeOperand c pos v).instructions.length = c.instructions.length := by
  rw [(changeOperand_fields c pos v).1]
  exact overwrite_length _ _ _

/-- Patching at or above the starting region preserves Extends and
well-formedness. -/
theorem changeOperand_extends_from (c0 c : compiler.Compiler) (pos v : Nat)
    (h : Extends c0 c) (hpos : c0.instructions.length ≤ pos) :
    Extends c0 (compiler.changeOperand c pos v) ∧
    (CompilerWF c → CompilerWF (compiler.changeOperand c pos v)) := by
  obtain ⟨l1, t1, la1, p1⟩ := h
  constructor
  · refine ⟨by rw [changeOperand_length]; exact l1, ?_, ?_, ?_⟩
    · rw [(changeOperand_fields c pos v).1, overwrite_take _ _ _ _ hpos]
      exact t1
    · rw [(changeOperand_fields c pos v).2.2.1]
      exact la1
    · rw [(changeOperand_fields c pos v).2.2.2, (changeOperand_fields c pos v).2.2.1]
      exact p1
  · intro hwf
    obtain ⟨h1, h2⟩ := hwf
    constructor
    · rw [(changeOperand_fields c pos v).2.2.2, (changeOperand_fields c pos v).2.2.1]
      exact h1
    · rw [(changeOperand_fields c pos v).2.2.1, changeOperand_length]
      exact h2

/-- The components of a removeLastPop step. -/
theorem removeLastPop_fields (c : compiler.Compiler) :
    (compiler.removeLastPop c).instructions =
      c.instructions.take c.lastInstruction.Position ∧
    (compiler.removeLastPop c).constants = c.constants ∧
    (compiler.removeLastPop c).lastInstruction = c.previousInstruction ∧
    (compiler.removeLastPop c).previousInstruction = c.previousInstruction :=
  ⟨rfl, rfl, rfl, rfl⟩

/-- Retracting the last instruction of a compiler that extends c0, when
that last instruction is not c0's own, stays inside the extension region:
the result still extends c0, is well-formed, and its buffer ends exactly at
the retracted instruction's position. -/
theorem removeLastPop_extends_from (c0 c3 : compiler.Compiler)
    (hx : Extends c0 c3) (hwf3 : CompilerWF c3)
    (hne : c3.lastInstruction ≠ c0.lastInstruction) :
    Extends c0 (compiler.removeLastPop c3) ∧ CompilerWF (compiler.removeLastPop c3) ∧
    (compiler.removeLastPop c3).instructions.length = c3.lastInstruction.Position ∧
    c0.instructions.length ≤ c3.lastInstruction.Position := by
  obtain ⟨l1, t1, la1, p1⟩ := hx
  obtain ⟨w1, w2⟩ := hwf3
  have hreg : c0.instructions.length ≤ c3.lastInstruction.Position := by
    rcases la1 with h | h
    · exact absurd h hne
    · exact h
  have hlen4 : (compiler.removeLastPop c3).instructions.length =
      c3.lastInstruction.Position := by
    rw [(removeLastPop_fields c3).1, List.length_take]
    omega
  refine ⟨⟨by omega, ?_, ?_, ?_⟩, ⟨?_, ?_⟩, hlen4, hreg⟩
  · rw [(removeLastPop_fields c3).1, List.take_take, Nat.min_eq_left hreg]
    exact t1
  · rw [(removeLastPop_fields c3).2.2.1]
    rcases p1 with ⟨hp, hl⟩ | h | h
    · exact absurd hl hne
    · left; exact h
    · right; exact h
  · rw [(removeLastPop_fields c3).2.2.2]
    rcases p1 with ⟨hp, hl⟩ | h | h
    · exact absurd hl hne
    · right; left; exact h
    · right; right; exact h
  · rw [(removeLastPop_fields c3).2.2.1, (removeLastPop_fields c3).2.2.2]
  · rw [(removeLastPop_fields c3).2.2.1, hlen4]
    exact w1

/-- Every successful Compile call extends its input compiler and preserves
well-formedness: the buffer only grows, bytes below the starting length are
never modified, and the bookkeeping points at inherited or freshly emitted
instructions. Proved by induction on the fuel, following each case of the
Go type switch. -/
theorem compile_extends : ∀ fuel : Nat,
    (∀ (node : ast.Node) (c cF : compiler.Compiler), CompilerWF c →
      compiler.Compile fuel c node = .ok cF → Extends c cF ∧ CompilerWF cF) ∧
    (∀ (stmts : List ast.Node) (c cF : compiler.Compiler), CompilerWF c →
      compiler.compileStatements fuel c stmts = .ok cF → Extends c cF ∧ CompilerWF cF) := by
  intro fuel
  induction fuel with
  | zero =>
    constructor <;> (intro x c cF _ h; cases h)
  | succ fuel ih =>
    obtain ⟨ihC, ihS⟩ := ih
    constructor
    · intro node c cF hwf h
      cases node with
      | Program stmts =>
        exact ihS stmts c cF hwf h
      | BlockStatement stmts =>
        exact ihS stmts c cF hwf h
      | Identifier name =>
        simp only [compiler.Compile] at h
        injection h with h1
        subst h1
        exact ⟨Extends_refl c, hwf⟩
      | LetStatement name value =>
        simp only [compiler.Compile] at h
        injection h with h1
        subst h1
        exact ⟨Extends_refl c, hwf⟩
      | IntegerLiteral value =>
        simp only [compiler.Compile] at h
        rcases hadd : compiler.addConstant c (.Integer value) with ⟨cA, idx⟩
        simp only [hadd] at h
        injection h with h1
        subst h1
        have hcA : cA = (compiler.addConstant c (.Integer value)).1 :=
          (congrArg Prod.fst hadd).symm
        constructor
        · refine Extends_trans ?_ (emit_extends cA _ _)
          rw [hcA]
          exact (addConstant_extends c _).1
        · refine emit_wf ?_ _ _
          rw [hcA]
          exact (addConstant_extends c _).2 hwf
      | BooleanLiteral value =>
        cases value with
        | true =>
          simp only [compiler.Compile, if_true] at h
          injection h with h1
          subst h1
          exact ⟨emit_extends c _ _, emit_wf hwf _ _⟩
        | false =>
          simp only [compiler.Compile, if_false, Bool.false_eq_true] at h
          injection h with h1
          subst h1
          exact ⟨emit_extends c _ _, emit_wf hwf _ _⟩
      | ExpressionStatement e =>
        simp only [compiler.Compile] at h
        cases he : compiler.Compile fuel c e with
        | error m => simp only [he] at h; cases h
        | ok cE =>
          simp only [he] at h
          injection h with h1
          subst h1
          obtain ⟨hx, hwfE⟩ := ihC e c cE hwf he
          exact ⟨Extends_trans hx (emit_extends cE _ _), emit_wf hwfE _ _⟩
      | PrefixExpression opstr r =>
        simp only [compiler.Compile] at h
        cases hr : compiler.Compile fuel c r with
        | error m => simp only [hr] at h; cases h
        | ok cR =>
          simp only [hr] at h
          obtain ⟨hx, hwfR⟩ := ihC r c cR hwf hr
          split_ifs at h <;>
            (injection h with h1
             subst h1
             exact ⟨Extends_trans hx (emit_extends cR _ _), emit_wf hwfR _ _⟩)
      | InfixExpression l opstr r =>
        simp only [compiler.Compile] at h
        by_cases hlt : opstr = "<"
        · rw [if_pos hlt] at h
          cases hr : compiler.Compile fuel c r with
          | error m => simp only [hr] at h; cases h
          | ok cR =>
            simp only [hr] at h
            cases hl : compiler.Compile fuel cR l with
            | error m => simp only [hl] at h; cases h
            | ok cL =>
              simp only [hl] at h
              injection h with h1
              subst h1
              obtain ⟨hx1, hwf1⟩ := ihC r c cR hwf hr
              obtain ⟨hx2, hwf2⟩ := ihC l cR cL hwf1 hl
              exact ⟨Extends_trans (Extends_trans hx1 hx2) (emit_extends cL _ _),
                emit_wf hwf2 _ _⟩
        · rw [if_neg hlt] at h
          cases hl : compiler.Compile fuel c l with
          | error m => simp only [hl] at h; cases h
          | ok cL =>
            simp only [hl] at h
            cases hr : compiler.Compile fuel cL r with
            | error m => simp only [hr] at h; cases h
            | ok cR =>
              simp only [hr] at h
              obtain ⟨hx1, hwf1⟩ := ihC l c cL hwf hl
              obtain ⟨hx2, hwf2⟩ := ihC r cL cR hwf1 hr
              split_ifs at h <;>
                (injection h with h1
                 subst h1
                 exact ⟨Extends_trans (Extends_trans hx1 hx2) (emit_extends cR _ _),
                   emit_wf hwf2 _ _⟩)
      | IfExpression cond cons alt =>
        simp only [compiler.Compile] at h
        cases hcond : compiler.Compile fuel c cond with
        | error m => simp only [hcond] at h; cases h
        | ok cC =>
          simp only [hcond] at h
          obtain ⟨hx1, hwfC⟩ := ihC cond c cC hwf hcond
          rcases hemit : compiler.emit cC code.OpJumpNotTruthy [9999] with ⟨c2, jntPos⟩
          simp only [hemit] at h
          have hc2 : c2 = (compiler.emit cC code.OpJumpNotTruthy [9999]).1 :=
            (congrArg Prod.fst hemit).symm
          have hjnt : jntPos = cC.instructions.length :=
            (congrArg Prod.snd hemit).symm
          have hx2 : Extends c c2 := by
            rw [hc2]; exact Extends_trans hx1 (emit_extends cC _ _)
          have hwf2 : CompilerWF c2 := by
            rw [hc2]; exact emit_wf hwfC _ _
          have hc2last : c2.lastInstruction =
              ⟨code.OpJumpNotTruthy, cC.instructions.length⟩ := by
            rw [hc2]; exact (emit_fields cC _ _).2.2.1
          cases hcons : compiler.Compile fuel c2 cons with
          | error m => simp only [hcons] at h; cases h
          | ok c3 =>
            simp only [hcons] at h
            obtain ⟨hx3, hwf3⟩ := ihC cons c2 c3 hwf2 hcons
            try dsimp only at h
            obtain ⟨hx4, hwf4⟩ :
                Extends c2 (if compiler.lastInstructionIsPop c3 = true then
                    compiler.removeLastPop c3 else c3) ∧
                CompilerWF (if compiler.lastInstructionIsPop c3 = true then
                    compiler.removeLastPop c3 else c3) := by
              by_cases hpop : compiler.lastInstructionIsPop c3 = true
              · rw [if_pos hpop]
                have hne : c3.lastInstruction ≠ c2.lastInstruction := by
                  intro he
                  have hop : c3.lastInstruction.Opcode = code.OpPop := by
                    simpa [compiler.lastInstructionIsPop] using hpop
                  rw [he, hc2last] at hop
                  have hcontra : code.OpJumpNotTruthy = code.OpPop := hop
                  exact absurd hcontra (by decide)
                obtain ⟨a, b, _, _⟩ := removeLastPop_extends_from c2 c3 hx3 hwf3 hne
                exact ⟨a, b⟩
              · rw [if_neg hpop]
                exact ⟨hx3, hwf3⟩
            have hposge : c.instructions.length ≤ jntPos := by
              rw [hjnt]; exact hx1.1
            cases alt with
            | none =>
              injection h with h1
              subst h1
              obtain ⟨a, b⟩ := changeOperand_extends_from c _ jntPos _
                (Extends_trans hx2 hx4) hposge
              exact ⟨a, b hwf4⟩
            | some altN =>
              rcases hemit2 : compiler.emit (if compiler.lastInstructionIsPop c3 = true then
                  compiler.removeLastPop c3 else c3) code.OpJump [9999] with ⟨c5, jumpPos⟩
              simp only [hemit2] at h
              try dsimp only at h
              have hc5 : c5 = (compiler.emit (if compiler.lastInstructionIsPop c3 = true then
                  compiler.removeLastPop c3 else c3) code.OpJump [9999]).1 :=
                (congrArg Prod.fst hemit2).symm
              have hx5 : Extends c c5 := by
                rw [hc5]
                exact Extends_trans (Extends_trans hx2 hx4) (emit_extends _ _ _)
              have hwf5 : CompilerWF c5 := by
                rw [hc5]; exact emit_wf hwf4 _ _
              have hc5last : c5.lastInstruction = ⟨code.OpJump,
                  (if compiler.lastInstructionIsPop c3 = true then
                    compiler.removeLastPop c3 else c3).instructions.length⟩ := by
                rw [hc5]; exact (emit_fields _ _ _).2.2.1
              obtain ⟨hx6, hwf6i⟩ := changeOperand_extends_from c c5 jntPos
                c5.instructions.length hx5 hposge
              have hwf6 : CompilerWF (compiler.changeOperand c5 jntPos
                  c5.instructions.length) := hwf6i hwf5
              cases halt : compiler.Compile fuel
                  (compiler.changeOperand c5 jntPos c5.instructions.length) altN with
              | error m => simp only [halt] at h; cases h
              | ok c7 =>
                simp only [halt] at h
                obtain ⟨hx7, hwf7⟩ := ihC altN _ c7 hwf6 halt
                try dsimp only at h
                injection h with h1
                subst h1
                have hc6last : (compiler.changeOperand c5 jntPos
                    c5.instructions.length).lastInstruction = c5.lastInstruction :=
                  (changeOperand_fields c5 jntPos c5.instructions.length).2.2.1
                obtain ⟨hx8, hwf8⟩ :
                    Extends (compiler.changeOperand c5 jntPos c5.instructions.length)
                      (if compiler.lastInstructionIsPop c7 = true then
                        compiler.removeLastPop c7 else c7) ∧
                    CompilerWF (if compiler.lastInstructionIsPop c7 = true then
                        compiler.removeLastPop c7 else c7) := by
                  by_cases hpop2 : compiler.lastInstructionIsPop c7 = true
                  · rw [if_pos hpop2]
                    have hne2 : c7.lastInstruction ≠ (compiler.changeOperand c5 jntPos
                        c5.instructions.length).lastInstruction := by
                      intro he
                      have hop : c7.lastInstruction.Opcode = code.OpPop := by
                        simpa [compiler.lastInstructionIsPop] using hpop2
                      rw [he, hc6last, hc5last] at hop
                      have hcontra : code.OpJump = code.OpPop := hop
                      exact absurd hcontra (by decide)
                    obtain ⟨a, b, _, _⟩ := removeLastPop_extends_from _ c7 hx7 hwf7 hne2
                    exact ⟨a, b⟩
                  · rw [if_neg hpop2]
                    exact ⟨hx7, hwf7⟩
                have hjumpge : c.instructions.length ≤ jumpPos := by
                  have hj : jumpPos = (if compiler.lastInstructionIsPop c3 = true then
                      compiler.removeLastPop c3 else c3).instructions.length :=
                    (congrArg Prod.snd hemit2).symm
                  rw [hj]
                  exact Nat.le_trans hx2.1 (Extends_trans hx4 (Extends_refl _)).1
                obtain ⟨a, b⟩ := changeOperand_extends_from c _ jumpPos _
                  (Extends_trans hx6 hx8) hjumpge
                exact ⟨a, b hwf8⟩
    · intro stmts c cF hwf h
      cases stmts with
      | nil =>
        simp only [compiler.compileStatements] at h
        injection h with h1
        subst h1
        exact ⟨Extends_refl c, hwf⟩
      | cons s rest =>
        simp only [compiler.compileStatements] at h
        cases hs : compiler.Compile fuel c s with
        | error m => simp only [hs] at h; cases h
        | ok c1 =>
          simp only [hs] at h
          obtain ⟨hx1, hwf1⟩ := ihC s c c1 hwf hs
          obtain ⟨hx2, hwf2⟩ := ihS rest c1 cF hwf1 h
          exact ⟨Extends_trans hx1 hx2, hwf2⟩

/-- Reading an appended list below the left part's length. -/
theorem getD_append_left (l m : List Nat) (i : Nat) (h : i < l.length) :
    (l ++ m).getD i 0 = l.getD i 0 := by
  rw [List.getD_eq_getElem?_getD, List.getD_eq_getElem?_getD, List.getElem?_append_left h]

/-- Reading an appended list at an offset into the right part. -/
theorem getD_append_right (l m : List Nat) (i : Nat) :
    (l ++ m).getD (l.length + i) 0 = m.getD i 0 := by
  rw [List.getD_eq_getElem?_getD, List.getD_eq_getElem?_getD,
    List.getElem?_append_right (Nat.le_add_right _ _), Nat.add_sub_cancel_left]

/-- Bytes below the starting region survive any extension of the compiler. -/
theorem extends_getD {c c1 : compiler.Compiler} (h : Extends c c1) (i : Nat)
    (hi : i < c.instructions.length) :
    c1.instructions.getD i 0 = c.instructions.getD i 0 :=
  getD_eq_of_take_eq _ _ _ i h.2.1 hi

/-- Make for the two jump opcodes: the opcode byte followed by the operand's
low 16 bits, big-endian. -/
theorem make_jump_operand (op v : Nat)
    (h : op = code.OpJump ∨ op = code.OpJumpNotTruthy) :
    code.Make op [v] = [op, v % 65536 / 256, v % 256] := by
  rcases h with rfl | rfl <;> with_unfolding_all rfl

/-- changeOperand at a jump opcode whose three-byte window lies inside the
buffer: the opcode byte is kept, the two operand bytes become the new
operand's big-endian low 16 bits, and every byte outside the two operand
positions is unchanged. -/
theorem changeOperand_jump_facts (c : compiler.Compiler) (pos v : Nat)
    (hop : c.instructions.getD pos 0 = code.OpJump ∨
      c.instructions.getD pos 0 = code.OpJumpNotTruthy)
    (hwin : pos + 3 ≤ c.instructions.length) :
    (compiler.changeOperand c pos v).instructions.getD pos 0 =
      c.instructions.getD pos 0 ∧
    (compiler.changeOperand c pos v).instructions.getD (pos + 1) 0 =
      v % 65536 / 256 ∧
    (compiler.changeOperand c pos v).instructions.getD (pos + 2) 0 = v % 256 ∧
    (∀ i, i ≠ pos + 1 → i ≠ pos + 2 →
      (compiler.changeOperand c pos v).instructions.getD i 0 =
        c.instructions.getD i 0) := by
  have hmk := make_jump_operand (c.instructions.getD pos 0) v hop
  refine ⟨?_, ?_, ?_, ?_⟩
  · rw [(changeOperand_fields c pos v).1, hmk]
    have h0 := overwrite_getD_inside
      [c.instructions.getD pos 0, v % 65536 / 256, v % 256]
      c.instructions pos 0 (by simp) (by simpa using hwin)
    simpa using h0
  · rw [(changeOperand_fields c pos v).1, hmk]
    have h1 := overwrite_getD_inside
      [c.instructions.getD pos 0, v % 65536 / 256, v % 256]
      c.instructions pos 1 (by simp) (by simpa using hwin)
    simpa using h1
  · rw [(changeOperand_fields c pos v).1, hmk]
    have h2 := overwrite_getD_inside
      [c.instructions.getD pos 0, v % 65536 / 256, v % 256]
      c.instructions pos 2 (by simp) (by simpa using hwin)
    simpa using h2
  · intro i hi1 hi2
    rw [(changeOperand_fields c pos v).1, hmk]
    by_cases hio : i < pos ∨ pos + 3 ≤ i
    · exact overwrite_getD_outside _ c.instructions pos i (by simpa using hio)
    · have hip : i = pos := by omega
      subst hip
      have h0 := overwrite_getD_inside
        [c.instructions.getD i 0, v % 65536 / 256, v % 256]
        c.instructions i 0 (by simp) (by simpa using hwin)
      simpa using h0

/-- Backpatch analysis of a conditional with an alternative, for any
starting compiler and any stream length. After compiling if (cond) A else B
the emitted stream is the condition's code, an OpJumpNotTruthy, A's code
(with a trailing OpPop retracted), an OpJump, and B's code (with a trailing
OpPop retracted). The stored OpJumpNotTruthy operand decodes to the byte
offset where B's code begins reduced mod 2^16 (the uint16 conversion in
putUint16), and the stored OpJump operand decodes to the stream's final
length mod 2^16; each patch rewrites only the instruction's two operand
bytes in place, preserving the opcode byte and the stream's total
length. -/
theorem compile_if_else_patched (fuel : Nat) (c0 : compiler.Compiler)
    (cond cons alt : ast.Node) (cF : compiler.Compiler)
    (hwf : CompilerWF c0)
    (h : compiler.Compile (fuel + 1) c0 (.IfExpression cond cons (some alt)) = .ok cF) :
    ∃ (cC c3 c5 c6 c7 c8 : compiler.Compiler)
      (jntPos jumpPos afterConsequencePos afterAlternativePos : Nat),
      compiler.Compile fuel c0 cond = .ok cC ∧
      jntPos = cC.instructions.length ∧
      compiler.Compile fuel (compiler.emit cC code.OpJumpNotTruthy [9999]).1 cons = .ok c3 ∧
      c5 = (compiler.emit (if compiler.lastInstructionIsPop c3 = true then
        compiler.removeLastPop c3 else c3) code.OpJump [9999]).1 ∧
      jumpPos = (if compiler.lastInstructionIsPop c3 = true then
        compiler.removeLastPop c3 else c3).instructions.length ∧
      afterConsequencePos = c5.instructions.length ∧
      c6 = compiler.changeOperand c5 jntPos afterConsequencePos ∧
      compiler.Compile fuel c6 alt = .ok c7 ∧
      c8 = (if compiler.lastInstructionIsPop c7 = true then
        compiler.removeLastPop c7 else c7) ∧
      afterAlternativePos = c8.instructions.length ∧
      cF = compiler.changeOperand c8 jumpPos afterAlternativePos ∧
      afterConsequencePos = jumpPos + 3 ∧
      c6.instructions.length = afterConsequencePos ∧
      afterAlternativePos = cF.instructions.length ∧
      cF.instructions.getD jntPos 0 = code.OpJumpNotTruthy ∧
      code.ReadUint16 (cF.instructions.drop (jntPos + 1)) = afterConsequencePos % 65536 ∧
      cF.instructions.getD jumpPos 0 = code.OpJump ∧
      code.ReadUint16 (cF.instructions.drop (jumpPos + 1)) = afterAlternativePos % 65536 ∧
      cF.instructions.length = c8.instructions.length ∧
      (∀ i, i ≠ jntPos + 1 → i ≠ jntPos + 2 →
        c6.instructions.getD i 0 = c5.instructions.getD i 0) ∧
      (∀ i, i ≠ jumpPos + 1 → i ≠ jumpPos + 2 →
        cF.instructions.getD i 0 = c8.instructions.getD i 0) ∧
      afterConsequencePos ≤ afterAlternativePos := by
  simp only [compiler.Compile] at h
  cases hcond : compiler.Compile fuel c0 cond with
  | error m => simp only [hcond] at h; cases h
  | ok cC =>
    simp only [hcond] at h
    obtain ⟨hx1, hwfC⟩ := (compile_extends fuel).1 cond c0 cC hwf hcond
    rcases hemit : compiler.emit cC code.OpJumpNotTruthy [9999] with ⟨c2v, jntPosv⟩
    simp only [hemit] at h
    have hc2 : c2v = (compiler.emit cC code.OpJumpNotTruthy [9999]).1 :=
      (congrArg Prod.fst hemit).symm
    have hjnt : jntPosv = cC.instructions.length :=
      (congrArg Prod.snd hemit).symm
    have hx2 : Extends c0 c2v := by
      rw [hc2]; exact Extends_trans hx1 (emit_extends cC _ _)
    have hwf2 : CompilerWF c2v := by
      rw [hc2]; exact emit_wf hwfC _ _
    have hc2last : c2v.lastInstruction =
        ⟨code.OpJumpNotTruthy, cC.instructions.length⟩ := by
      rw [hc2]; exact (emit_fields cC _ _).2.2.1
    have hc2ins : c2v.instructions = cC.instructions ++ [13, 39, 15] := by
      rw [hc2]; with_unfolding_all rfl
    cases hcons : compiler.Compile fuel c2v cons with
    | error m => simp only [hcons] at h; cases h
    | ok c3 =>
      simp only [hcons] at h
      obtain ⟨hx3, hwf3⟩ := (compile_extends fuel).1 cons c2v c3 hwf2 hcons
      try dsimp only at h
      obtain ⟨hx4, hwf4⟩ :
          Extends c2v (if compiler.lastInstructionIsPop c3 = true then
            compiler.removeLastPop c3 else c3) ∧
          CompilerWF (if compiler.lastInstructionIsPop c3 = true then
            compiler.removeLastPop c3 else c3) := by
        by_cases hpop : compiler.lastInstructionIsPop c3 = true
        · rw [if_pos hpop]
          have hne : c3.lastInstruction ≠ c2v.lastInstruction := by
            intro he
            have hop : c3.lastInstruction.Opcode = code.OpPop := by
              simpa [compiler.lastInstructionIsPop] using hpop
            rw [he, hc2last] at hop
            have hcontra : code.OpJumpNotTruthy = code.OpPop := hop
            exact absurd hcontra (by decide)
          obtain ⟨a, b, _, _⟩ := removeLastPop_extends_from c2v c3 hx3 hwf3 hne
          exact ⟨a, b⟩
        · rw [if_neg hpop]
          exact ⟨hx3, hwf3⟩
      rcases hemit2 : compiler.emit (if compiler.lastInstructionIsPop c3 = true then
          compiler.removeLastPop c3 else c3) code.OpJump [9999] with ⟨c5v, jumpPosv⟩
      simp only [hemit2] at h
      try dsimp only at h
      have hc5 : c5v = (compiler.emit (if compiler.lastInstructionIsPop c3 = true then
          compiler.removeLastPop c3 else c3) code.OpJump [9999]).1 :=
        (congrArg Prod.fst hemit2).symm
      have hjump : jumpPosv = (if compiler.lastInstructionIsPop c3 = true then
          compiler.removeLastPop c3 else c3).instructions.length :=
        (congrArg Prod.snd hemit2).symm
      have hx5 : Extends c0 c5v := by
        rw [hc5]
        exact Extends_trans (Extends_trans hx2 hx4) (emit_extends _ _ _)
      have hwf5 : CompilerWF c5v := by
        rw [hc5]; exact emit_wf hwf4 _ _
      have hc5last : c5v.lastInstruction = ⟨code.OpJump,
          (if compiler.lastInstructionIsPop c3 = true then
            compiler.removeLastPop c3 else c3).instructions.length⟩ := by
        rw [hc5]; exact (emit_fields _ _ _).2.2.1
      have hc5ins : c5v.instructions =
          (if compiler.lastInstructionIsPop c3 = true then
            compiler.removeLastPop c3 else c3).instructions ++ [12, 39, 15] := by
        rw [hc5]; with_unfolding_all rfl
      have hlen2 : c2v.instructions.length = jntPosv + 3 := by
        rw [hc2ins, hjnt]; simp
      have hle24 : c2v.instructions.length ≤
          (if compiler.lastInstructionIsPop c3 = true then
            compiler.removeLastPop c3 else c3).instructions.length := hx4.1
      have hlen5 : c5v.instructions.length = jumpPosv + 3 := by
        rw [hc5ins, hjump]; simp
      have hb2 : c2v.instructions.getD jntPosv 0 = code.OpJumpNotTruthy := by
        rw [hc2ins, hjnt]
        have h13 := getD_append_right cC.instructions [13, 39, 15] 0
        simp only [Nat.add_zero] at h13
        exact h13
      have hb4 : (if compiler.lastInstructionIsPop c3 = true then
          compiler.removeLastPop c3 else c3).instructions.getD jntPosv 0 =
          code.OpJumpNotTruthy := by
        rw [extends_getD hx4 jntPosv (by omega)]
        exact hb2
      have hb5 : c5v.instructions.getD jntPosv 0 = code.OpJumpNotTruthy := by
        rw [hc5ins]
        rw [getD_append_left ((if compiler.lastInstructionIsPop c3 = true then
          compiler.removeLastPop c3 else c3).instructions) [12, 39, 15] jntPosv (by omega)]
        exact hb4
      have hwin1 : jntPosv + 3 ≤ c5v.instructions.length := by omega
      obtain ⟨hp1a, hp1b, hp1c, hp1d⟩ := changeOperand_jump_facts c5v jntPosv
        c5v.instructions.length (Or.inr hb5) hwin1
      have hlen6 : (compiler.changeOperand c5v jntPosv
          c5v.instructions.length).instructions.length = c5v.instructions.length :=
        changeOperand_length c5v jntPosv c5v.instructions.length
      have hposge : c0.instructions.length ≤ jntPosv := by
        rw [hjnt]; exact hx1.1
      obtain ⟨hx6, hwf6i⟩ := changeOperand_extends_from c0 c5v jntPosv
        c5v.instructions.length hx5 hposge
      have hwf6 : CompilerWF (compiler.changeOperand c5v jntPosv
          c5v.instructions.length) := hwf6i hwf5
      cases halt : compiler.Compile fuel
          (compiler.changeOperand c5v jntPosv c5v.instructions.length) alt with
      | error m => simp only [halt] at h; cases h
      | ok c7 =>
        simp only [halt] at h
        obtain ⟨hx7, hwf7⟩ := (compile_extends fuel).1 alt _ c7 hwf6 halt
        try dsimp only at h
        injection h with h1
        subst h1
        have hc6last : (compiler.changeOperand c5v jntPosv
            c5v.instructions.length).lastInstruction = c5v.lastInstruction :=
          (changeOperand_fields c5v jntPosv c5v.instructions.length).2.2.1
        obtain ⟨hx8, hwf8⟩ :
            Extends (compiler.changeOperand c5v jntPosv c5v.instructions.length)
              (if compiler.lastInstructionIsPop c7 = true then
                compiler.removeLastPop c7 else c7) ∧
            CompilerWF (if compiler.lastInstructionIsPop c7 = true then
                compiler.removeLastPop c7 else c7) := by
          by_cases hpop2 : compiler.lastInstructionIsPop c7 = true
          · rw [if_pos hpop2]
            have hne2 : c7.lastInstruction ≠ (compiler.changeOperand c5v jntPosv
                c5v.instructions.length).lastInstruction := by
              intro he
              have hop : c7.lastInstruction.Opcode = code.OpPop := by
                simpa [compiler.lastInstructionIsPop] using hpop2
              rw [he, hc6last, hc5last] at hop
              have hcontra : code.OpJump = code.OpPop := hop
              exact absurd hcontra (by decide)
            obtain ⟨a, b, _, _⟩ := removeLastPop_extends_from _ c7 hx7 hwf7 hne2
            exact ⟨a, b⟩
          · rw [if_neg hpop2]
            exact ⟨hx7, hwf7⟩
        have hle68 : (compiler.changeOperand c5v jntPosv
            c5v.instructions.length).instructions.length ≤
            (if compiler.lastInstructionIsPop c7 = true then
              compiler.removeLastPop c7 else c7).instructions.length := hx8.1
        have hwin2 : jumpPosv + 3 ≤ (if compiler.lastInstructionIsPop c7 = true then
            compiler.removeLastPop c7 else c7).instructions.length := by omega
        have hb8 : (if compiler.lastInstructionIsPop c7 = true then
            compiler.removeLastPop c7 else c7).instructions.getD jumpPosv 0 =
            code.OpJump := by
          rw [extends_getD hx8 jumpPosv (by omega)]
          rw [hp1d jumpPosv (by omega) (by omega)]
          rw [hc5ins, hjump]
          have h12 := getD_append_right ((if compiler.lastInstructionIsPop c3 = true then
            compiler.removeLastPop c3 else c3).instructions) [12, 39, 15] 0
          simp only [Nat.add_zero] at h12
          exact h12
        obtain ⟨hp2a, hp2b, hp2c, hp2d⟩ := changeOperand_jump_facts
          (if compiler.lastInstructionIsPop c7 = true then
            compiler.removeLastPop c7 else c7) jumpPosv
          (if compiler.lastInstructionIsPop c7 = true then
            compiler.removeLastPop c7 else c7).instructions.length
          (Or.inl hb8) hwin2
        have hlenF : (compiler.changeOperand
            (if compiler.lastInstructionIsPop c7 = true then
              compiler.removeLastPop c7 else c7) jumpPosv
            (if compiler.lastInstructionIsPop c7 = true then
              compiler.removeLastPop c7 else c7).instructions.length).instructions.length =
            (if compiler.lastInstructionIsPop c7 = true then
              compiler.removeLastPop c7 else c7).instructions.length :=
          changeOperand_length _ _ _
        have hcFjnt : (compiler.changeOperand
            (if compiler.lastInstructionIsPop c7 = true then
              compiler.removeLastPop c7 else c7) jumpPosv
            (if compiler.lastInstructionIsPop c7 = true then
              compiler.removeLastPop c7 else c7).instructions.length).instructions.getD
            jntPosv 0 = code.OpJumpNotTruthy := by
          rw [hp2d jntPosv (by omega) (by omega)]
          rw [extends_getD hx8 jntPosv (by omega)]
          rw [hp1a]
          exact hb5
        have hcFjnt1 : (compiler.changeOperand
            (if compiler.lastInstructionIsPop c7 = true then
              compiler.removeLastPop c7 else c7) jumpPosv
            (if compiler.lastInstructionIsPop c7 = true then
              compiler.removeLastPop c7 else c7).instructions.length).instructions.getD
            (jntPosv + 1) 0 = c5v.instructions.length % 65536 / 256 := by
          rw [hp2d (jntPosv + 1) (by omega) (by omega)]
          rw [extends_getD hx8 (jntPosv + 1) (by omega)]
          exact hp1b
        have hcFjnt2 : (compiler.changeOperand
            (if compiler.lastInstructionIsPop c7 = true then
              compiler.removeLastPop c7 else c7) jumpPosv
            (if compiler.lastInstructionIsPop c7 = true then
              compiler.removeLastPop c7 else c7).instructions.length).instructions.getD
            (jntPosv + 2) 0 = c5v.instructions.length % 256 := by
          rw [hp2d (jntPosv + 2) (by omega) (by omega)]
          rw [extends_getD hx8 (jntPosv + 2) (by omega)]
          exact hp1c
        have hdec1 : code.ReadUint16 ((compiler.changeOperand
            (if compiler.lastInstructionIsPop c7 = true then
              compiler.removeLastPop c7 else c7) jumpPosv
            (if compiler.lastInstructionIsPop c7 = true then
              compiler.removeLastPop c7 else c7).instructions.length).instructions.drop
            (jntPosv + 1)) = c5v.instructions.length % 65536 := by
          rw [readUint16_drop, hcFjnt1, hcFjnt2]
          omega
        have hcFjump : (compiler.changeOperand
            (if compiler.lastInstructionIsPop c7 = true then
              compiler.removeLastPop c7 else c7) jumpPosv
            (if compiler.lastInstructionIsPop c7 = true then
              compiler.removeLastPop c7 else c7).instructions.length).instructions.getD
            jumpPosv 0 = code.OpJump := by
          rw [hp2a]; exact hb8
        have hdec2 : code.ReadUint16 ((compiler.changeOperand
            (if compiler.lastInstructionIsPop c7 = true then
              compiler.removeLastPop c7 else c7) jumpPosv
            (if compiler.lastInstructionIsPop c7 = true then
              compiler.removeLastPop c7 else c7).instructions.length).instructions.drop
            (jumpPosv + 1)) = (if compiler.lastInstructionIsPop c7 = true then
              compiler.removeLastPop c7 else c7).instructions.length % 65536 := by
          rw [readUint16_drop, hp2b, hp2c]
          omega
        have hleAC : c5v.instructions.length ≤
            (if compiler.lastInstructionIsPop c7 = true then
              compiler.removeLastPop c7 else c7).instructions.length := by
          omega
        refine ⟨cC, c3, c5v,
          compiler.changeOperand c5v jntPosv c5v.instructions.length, c7,
          (if compiler.lastInstructionIsPop c7 = true then
            compiler.removeLastPop c7 else c7),
          jntPosv, jumpPosv, c5v.instructions.length,
          (if compiler.lastInstructionIsPop c7 = true then
            compiler.removeLastPop c7 else c7).instructions.length,
          ?_, ?_, ?_, ?_, ?_, ?_, ?_, ?_, ?_, ?_, ?_,
          ?_, ?_, ?_, ?_, ?_, ?_, ?_, ?_, ?_, ?_, ?_⟩
        all_goals first
          | rfl
          | exact hcond
          | exact hjnt
          | exact hc5
          | exact hjump
          | exact halt
          | exact hlen5
          | exact hlen6
          | exact hlenF.symm
          | exact hcFjnt
          | exact hdec1
          | exact hcFjump
          | exact hdec2
          | exact hlenF
          | exact hp1d
          | exact hp2d
          | exact hleAC
          | (rw [← hc2]; exact hcons)

/-- C6, amended: backpatch correctness for a conditional with an
alternative, for compiled streams within the jump operands' declared 16-bit
width (beyond it the stored operand is the offset truncated mod 2^16, the
uint16 conversion refuted by the counterexample). After compiling
if (cond) A else B the emitted stream is the condition's code, an
OpJumpNotTruthy, A's code (with a trailing OpPop retracted), an OpJump, and
B's code (with a trailing OpPop retracted). The OpJumpNotTruthy operand
decodes to the byte offset immediately after A's compiled code and its
closing OpJump — exactly where B's code begins — and the OpJump operand
decodes to the byte offset immediately after B's compiled code, the end of
the stream. Each patch rewrites only the instruction's two operand bytes in
place, preserving the opcode byte and the stream's total length. -/
theorem claim6_backpatch (fuel : Nat) (c0 : compiler.Compiler)
    (cond cons alt : ast.Node) (cF : compiler.Compiler)
    (hwf : CompilerWF c0)
    (h : compiler.Compile (fuel + 1) c0 (.IfExpression cond cons (some alt)) = .ok cF)
    (hbound : cF.instructions.length ≤ 65535) :
    ∃ (cC c3 c5 c6 c7 c8 : compiler.Compiler)
      (jntPos jumpPos afterConsequencePos afterAlternativePos : Nat),
      compiler.Compile fuel c0 cond = .ok cC ∧
      jntPos = cC.instructions.length ∧
      compiler.Compile fuel (compiler.emit cC code.OpJumpNotTruthy [9999]).1 cons = .ok c3 ∧
      c5 = (compiler.emit (if compiler.lastInstructionIsPop c3 = true then
        compiler.removeLastPop c3 else c3) code.OpJump [9999]).1 ∧
      jumpPos = (if compiler.lastInstructionIsPop c3 = true then
        compiler.removeLastPop c3 else c3).instructions.length ∧
      afterConsequencePos = c5.instructions.length ∧
      c6 = compiler.changeOperand c5 jntPos afterConsequencePos ∧
      compiler.Compile fuel c6 alt = .ok c7 ∧
      c8 = (if compiler.lastInstructionIsPop c7 = true then
        compiler.removeLastPop c7 else c7) ∧
      afterAlternativePos = c8.instructions.length ∧
      cF = compiler.changeOperand c8 jumpPos afterAlternativePos ∧
      afterConsequencePos = jumpPos + 3 ∧
      c6.instructions.length = afterConsequencePos ∧
      afterAlternativePos = cF.instructions.length ∧
      cF.instructions.getD jntPos 0 = code.OpJumpNotTruthy ∧
      code.ReadUint16 (cF.instructions.drop (jntPos + 1)) = afterConsequencePos ∧
      cF.instructions.getD jumpPos 0 = code.OpJump ∧
      code.ReadUint16 (cF.instructions.drop (jumpPos + 1)) = afterAlternativePos ∧
      cF.instructions.length = c8.instructions.length ∧
      (∀ i, i ≠ jntPos + 1 → i ≠ jntPos + 2 →
        c6.instructions.getD i 0 = c5.instructions.getD i 0) ∧
      (∀ i, i ≠ jumpPos + 1 → i ≠ jumpPos + 2 →
        cF.instructions.getD i 0 = c8.instructions.getD i 0) := by
  obtain ⟨cC, c3, c5, c6, c7, c8, jnt, jmp, aC, aA, h1, h2, h3, h4, h5, h6, h7, h8,
    h9, h10, h11, h12, h13, h14, h15, h16, h17, h18, h19, h20, h21, hle⟩ :=
    compile_if_else_patched fuel c0 cond cons alt cF hwf h
  have haCb : aC ≤ 65535 := by
    rw [h14] at hle
    omega
  have haAb : aA ≤ 65535 := by
    rw [h14]
    exact hbound
  refine ⟨cC, c3, c5, c6, c7, c8, jnt, jmp, aC, aA, h1, h2, h3, h4, h5, h6, h7,
    h8, h9, h10, h11, h12, h13, h14, h15, ?_, h17, ?_, h19, h20, h21⟩
  · rw [h16]
    omega
  · rw [h18]
    omega

/-- Witness for C6: compiling if (true) then 10 else 20 from a fresh
compiler yields the fixture state, whose OpJumpNotTruthy operand decodes to
10 (the start of the alternative) and whose OpJump operand decodes to 13
(the stream's end). -/
theorem claim6_witness :
    CompilerWF compiler.New ∧
    compiler.Compile 4 compiler.New
      (.IfExpression (.BooleanLiteral true) (.IntegerLiteral 10)
        (some (.IntegerLiteral 20))) = .ok claim6Example ∧
    claim6Example.instructions.length ≤ 65535 ∧
    (∃ (cC c3 c5 c6 c7 c8 : compiler.Compiler)
      (jntPos jumpPos afterConsequencePos afterAlternativePos : Nat),
      compiler.Compile 3 compiler.New (.BooleanLiteral true) = .ok cC ∧
      jntPos = cC.instructions.length ∧
      compiler.Compile 3 (compiler.emit cC code.OpJumpNotTruthy [9999]).1
        (.IntegerLiteral 10) = .ok c3 ∧
      c5 = (compiler.emit (if compiler.lastInstructionIsPop c3 = true then
        compiler.removeLastPop c3 else c3) code.OpJump [9999]).1 ∧
      jumpPos = (if compiler.lastInstructionIsPop c3 = true then
        compiler.removeLastPop c3 else c3).instructions.length ∧
      afterConsequencePos = c5.instructions.length ∧
      c6 = compiler.changeOperand c5 jntPos afterConsequencePos ∧
      compiler.Compile 3 c6 (.IntegerLiteral 20) = .ok c7 ∧
      c8 = (if compiler.lastInstructionIsPop c7 = true then
        compiler.removeLastPop c7 else c7) ∧
      afterAlternativePos = c8.instructions.length ∧
      claim6Example = compiler.changeOperand c8 jumpPos afterAlternativePos ∧
      afterConsequencePos = jumpPos + 3 ∧
      c6.instructions.length = afterConsequencePos ∧
      afterAlternativePos = claim6Example.instructions.length ∧
      claim6Example.instructions.getD jntPos 0 = code.OpJumpNotTruthy ∧
      code.ReadUint16 (claim6Example.instructions.drop (jntPos + 1)) =
        afterConsequencePos ∧
      claim6Example.instructions.getD jumpPos 0 = code.OpJump ∧
      code.ReadUint16 (claim6Example.instructions.drop (jumpPos + 1)) =
        afterAlternativePos ∧
      claim6Example.instructions.length = c8.instructions.length ∧
      (∀ i, i ≠ jntPos + 1 → i ≠ jntPos + 2 →
        c6.instructions.getD i 0 = c5.instructions.getD i 0) ∧
      (∀ i, i ≠ jumpPos + 1 → i ≠ jumpPos + 2 →
        claim6Example.instructions.getD i 0 = c8.instructions.getD i 0)) :=
  ⟨⟨Nat.le_refl 0, Nat.le_refl 0⟩, rfl, by decide,
   claim6_backpatch 3 compiler.New (.BooleanLiteral true) (.IntegerLiteral 10)
     (.IntegerLiteral 20) claim6Example
     ⟨Nat.le_refl 0, Nat.le_refl 0⟩ rfl (by decide)⟩

/-- C6 counterexample to the frozen claim: a conditional whose code sits
past the first 65536 bytes of the instruction stream. Compiling
if (true) then 10 else 20 from a well-formed compiler holding 65536 bytes
succeeds; its OpJumpNotTruthy is emitted at byte 65537 and the alternative's
code begins at byte offset 65546, but the stored operand decodes to
65546 mod 2^16 = 10, and likewise the OpJump operand decodes to
65549 mod 2^16 = 13 instead of the stream's final length 65549: the uint16
conversion in putUint16 truncates both patched operands, so the operands do
not equal the claimed byte offsets. -/
theorem claim6_counterexample :
    CompilerWF claim6BigStart ∧
    ∃ (cF cC c3 c5 c6 c7 c8 : compiler.Compiler)
      (jntPos jumpPos afterConsequencePos afterAlternativePos : Nat),
      compiler.Compile 4 claim6BigStart
        (.IfExpression (.BooleanLiteral true) (.IntegerLiteral 10)
          (some (.IntegerLiteral 20))) = .ok cF ∧
      compiler.Compile 3 claim6BigStart (.BooleanLiteral true) = .ok cC ∧
      jntPos = cC.instructions.length ∧
      compiler.Compile 3 (compiler.emit cC code.OpJumpNotTruthy [9999]).1
        (.IntegerLiteral 10) = .ok c3 ∧
      c5 = (compiler.emit (if compiler.lastInstructionIsPop c3 = true then
        compiler.removeLastPop c3 else c3) code.OpJump [9999]).1 ∧
      jumpPos = (if compiler.lastInstructionIsPop c3 = true then
        compiler.removeLastPop c3 else c3).instructions.length ∧
      afterConsequencePos = c5.instructions.length ∧
      c6 = compiler.changeOperand c5 jntPos afterConsequencePos ∧
      compiler.Compile 3 c6 (.IntegerLiteral 20) = .ok c7 ∧
      c8 = (if compiler.lastInstructionIsPop c7 = true then
        compiler.removeLastPop c7 else c7) ∧
      afterAlternativePos = c8.instructions.length ∧
      cF = compiler.changeOperand c8 jumpPos afterAlternativePos ∧
      jntPos = 65537 ∧
      jumpPos = 65543 ∧
      afterConsequencePos = 65546 ∧
      afterAlternativePos = 65549 ∧
      cF.instructions.getD jntPos 0 = code.OpJumpNotTruthy ∧
      code.ReadUint16 (cF.instructions.drop (jntPos + 1)) = 10 ∧
      code.ReadUint16 (cF.instructions.drop (jntPos + 1)) ≠ afterConsequencePos ∧
      cF.instructions.getD jumpPos 0 = code.OpJump ∧
      code.ReadUint16 (cF.instructions.drop (jumpPos + 1)) = 13 ∧
      code.ReadUint16 (cF.instructions.drop (jumpPos + 1)) ≠ afterAlternativePos := by
  have hwfB : CompilerWF claim6BigStart := ⟨Nat.le_refl 0, Nat.zero_le _⟩
  refine ⟨hwfB, ?_⟩
  have hrun : compiler.Compile 4 claim6BigStart
      (.IfExpression (.BooleanLiteral true) (.IntegerLiteral 10)
        (some (.IntegerLiteral 20))) = .ok claim6BigResult := by
    with_unfolding_all rfl
  have hC0 : compiler.Compile 3 claim6BigStart (.BooleanLiteral true) =
      .ok claim6BigC1 := by
    with_unfolding_all rfl
  have hC1 : compiler.Compile 3
      (compiler.emit claim6BigC1 code.OpJumpNotTruthy [9999]).1
      (.IntegerLiteral 10) = .ok claim6BigC3 := by
    with_unfolding_all rfl
  have hC2 : compiler.Compile 3 claim6BigC6 (.IntegerLiteral 20) =
      .ok claim6BigC7 := by
    with_unfolding_all rfl
  have hlen1 : claim6BigC1.instructions.length = 65537 := by
    simp only [claim6BigC1]
    rw [(emit_fields claim6BigStart code.OpTrue []).1]
    rw [show code.Make code.OpTrue [] = [5] from rfl]
    rw [List.length_append,
      show claim6BigStart.instructions = List.replicate 65536 0 from rfl,
      List.length_replicate]
    decide
  have hlen2 : claim6BigC2.instructions.length = 65540 := by
    simp only [claim6BigC2]
    rw [(emit_fields claim6BigC1 code.OpJumpNotTruthy [9999]).1]
    rw [show code.Make code.OpJumpNotTruthy [9999] = [13, 39, 15] from rfl]
    rw [List.length_append, hlen1]
    decide
  have hlen3 : claim6BigC3.instructions.length = 65543 := by
    simp only [claim6BigC3]
    rw [(emit_fields _ _ _).1, (addConstant_fields _ _).1]
    rw [show code.Make code.OpConstant
      [(compiler.addConstant claim6BigC2 (.Integer 10)).2] = [0, 0, 0] from rfl]
    rw [List.length_append, hlen2]
    decide
  have hlen5 : claim6BigC5.instructions.length = 65546 := by
    simp only [claim6BigC5]
    rw [(emit_fields claim6BigC3 code.OpJump [9999]).1]
    rw [show code.Make code.OpJump [9999] = [12, 39, 15] from rfl]
    rw [List.length_append, hlen3]
    decide
  have hlen6 : claim6BigC6.instructions.length = 65546 := by
    simp only [claim6BigC6]
    rw [changeOperand_length]
    exact hlen5
  have hlen7 : claim6BigC7.instructions.length = 65549 := by
    simp only [claim6BigC7]
    rw [(emit_fields _ _ _).1, (addConstant_fields _ _).1]
    rw [show code.Make code.OpConstant
      [(compiler.addConstant claim6BigC6 (.Integer 20)).2] = [0, 0, 1] from rfl]
    rw [List.length_append, hlen6]
    decide
  obtain ⟨cC, c3, c5, c6, c7, c8, jnt, jmp, aC, aA, h1, h2, h3, h4, h5, h6, h7, h8,
    h9, h10, h11, h12, h13, h14, h15, h16, h17, h18, h19, h20, h21, hle⟩ :=
    compile_if_else_patched 3 claim6BigStart (.BooleanLiteral true)
      (.IntegerLiteral 10) (.IntegerLiteral 20) claim6BigResult hwfB hrun
  have hcC : claim6BigC1 = cC :=
    Except.ok.inj (hC0.symm.trans h1)
  have hc3 : claim6BigC3 = c3 := by
    have h := h3
    rw [← hcC] at h
    exact Except.ok.inj (hC1.symm.trans h)
  have hpop3 : compiler.lastInstructionIsPop c3 = false := by
    rw [← hc3]
    rfl
  have hc5 : c5 = claim6BigC5 := by
    have h := h4
    rw [hpop3] at h
    simp only [Bool.false_eq_true, if_false] at h
    rw [← hc3] at h
    exact h
  have hjntv : jnt = 65537 := by
    rw [h2, ← hcC]
    exact hlen1
  have hjmpv : jmp = 65543 := by
    have h := h5
    rw [hpop3] at h
    simp only [Bool.false_eq_true, if_false] at h
    rw [h, ← hc3]
    exact hlen3
  have haCv : aC = 65546 := by
    rw [h6, hc5]
    exact hlen5
  have hjterm : jnt = claim6BigC1.instructions.length := by
    rw [h2, ← hcC]
  have haterm : aC = claim6BigC5.instructions.length := by
    rw [h6, hc5]
  have hc7 : claim6BigC7 = c7 := by
    have h := h8
    rw [h7, hc5, hjterm, haterm] at h
    have hfold : compiler.Compile 3 claim6BigC6 (.IntegerLiteral 20) = .ok c7 := h
    exact Except.ok.inj (hC2.symm.trans hfold)
  have hpop7 : compiler.lastInstructionIsPop c7 = false := by
    rw [← hc7]
    rfl
  have hc8 : c8 = c7 := by
    have h := h9
    rw [hpop7] at h
    simp only [Bool.false_eq_true, if_false] at h
    exact h
  have haAv : aA = 65549 := by
    rw [h10, hc8, ← hc7]
    exact hlen7
  have hdJnt : code.ReadUint16 (claim6BigResult.instructions.drop (jnt + 1)) = 10 := by
    have h := h16
    rw [haCv] at h
    simpa using h
  have hdJmp : code.ReadUint16 (claim6BigResult.instructions.drop (jmp + 1)) = 13 := by
    have h := h18
    rw [haAv] at h
    simpa using h
  have hne1 : code.ReadUint16 (claim6BigResult.instructions.drop (jnt + 1)) ≠ aC := by
    rw [hdJnt, haCv]
    decide
  have hne2 : code.ReadUint16 (claim6BigResult.instructions.drop (jmp + 1)) ≠ aA := by
    rw [hdJmp, haAv]
    decide
  exact ⟨claim6BigResult, cC, c3, c5, c6, c7, c8, jnt, jmp, aC, aA,
    hrun, h1, h2, h3, h4, h5, h6, h7, h8, h9, h10, h11,
    hjntv, hjmpv, haCv, haAv, h15, hdJnt, hne1, h17, hdJmp, hne2⟩

end GoCompiler
